import Mathlib

/-!
Verification of the `intl-number-input` core codec
(`src/packages/core/src/numberFormat.ts`).

Strings are modelled as `List Char`; the JavaScript string methods used by
the source (`replace` with a plain-string pattern, `replace` with a global
regex of an escaped literal, `startsWith`, `split`, `substr`) are given
their ECMAScript semantics below.  Optional symbols (`decimalSymbol`,
`groupingSymbol`, `minusSymbol`) are `Option (List Char)`; where the
source passes a possibly-`undefined` value to a string position,
JavaScript coerces `undefined` to the text `"undefined"`, which the
model reproduces (`jsStrT`).

The host locale facility (`Intl.NumberFormat` / `toLocaleString`) is not
part of the repository; it is modelled from the spec (sections 4.1, 4.3
and 6): a profile is built from a decomposed part list, and integer
formatting renders the decimal digits of the value through the profile's
digit glyphs with standard three-digit grouping and the profile's
affixes.  JavaScript numbers are modelled as exact rationals together
with the overflow behaviour of the host's double range (`JsNumber`);
rounding of finite values to doubles is outside the model.
-/

set_option maxRecDepth 8192

namespace INI

/-- The regex character class `\d` (code points of `'0'`–`'9'`). -/
def isAsciiDigit (c : Char) : Bool := decide (48 ≤ c.toNat) && decide (c.toNat ≤ 57)

/-- ECMAScript `ToString` applied to a possibly-`undefined` string:
`undefined` used in a string position becomes the text `"undefined"`. -/
def jsStrT : Option (List Char) → List Char
  | none => "undefined".data
  | some s => s

/-- JavaScript truthiness of a possibly-`undefined` string:
`undefined` and the empty string are falsy. -/
def truthyStr : Option (List Char) → Bool
  | none => false
  | some s => !s.isEmpty

/-- `String.prototype.replace` with a plain-string pattern: replaces the
leftmost occurrence of `p` in `s` by `r` (only the first occurrence); an
empty pattern matches at index 0. -/
def replaceFirst : List Char → List Char → List Char → List Char
  | s, [], r => r ++ s
  | [], _ :: _, _ => []
  | c :: t, p :: ps, r =>
    if (p :: ps).isPrefixOf (c :: t) then r ++ (c :: t).drop (p :: ps).length
    else c :: replaceFirst t (p :: ps) r

/-- Fuel-driven worker for `replaceAll` (the fuel keeps the recursion
structural; `replaceAll` supplies enough fuel to process the whole
string). -/
def replaceAllFuel : Nat → List Char → List Char → List Char → List Char
  | 0, s, _, _ => s
  | _ + 1, [], _, _ => []
  | fuel + 1, c :: t, p, r =>
    if p ≠ [] ∧ p.isPrefixOf (c :: t) then r ++ replaceAllFuel fuel ((c :: t).drop p.length) p r
    else c :: replaceAllFuel fuel t p r

/-- `String.prototype.replace` with a global regex on an escaped literal:
replaces every (non-overlapping, left-to-right) occurrence of `p` by `r`. -/
def replaceAll (s p r : List Char) : List Char := replaceAllFuel s.length s p r

/-- `str.split(p)[0]`: the text before the leftmost occurrence of the
(nonempty) separator `p`; the whole string when `p` does not occur. -/
def splitBefore (s p : List Char) : List Char :=
  match s with
  | [] => []
  | c :: t => if p ≠ [] ∧ p.isPrefixOf (c :: t) then [] else c :: splitBefore t p

/-- Whether `p` occurs as a contiguous substring of `s`. -/
def occursIn (s p : List Char) : Bool :=
  match s with
  | [] => p.isEmpty
  | _ :: t => p.isPrefixOf s || occursIn t p

/-- `DECIMAL_SEPARATORS` of the source: comma, period, Arabic decimal
separator. -/
def DECIMAL_SEPARATORS : List Char := [',', '.', '٫']

/-- The format styles of the API (`NumberFormatStyle` of api.ts): the
style the constructor stores and hands to every host rendering call. -/
inductive NumberFormatStyle where
  | decimal
  | currency
  | percent
  | unit
deriving DecidableEq

/-- The data of a `NumberFormat` instance (the spec's LocaleProfile):
the fields written once by the constructor.  The source's `prefix` field
is called `pfx` here (`prefix` is reserved in Lean). -/
structure NumberFormat where
  style : NumberFormatStyle
  digits : List Char
  decimalSymbol : Option (List Char)
  groupingSymbol : Option (List Char)
  minusSymbol : Option (List Char)
  minimumFractionDigits : Nat
  maximumFractionDigits : Nat
  pfx : List Char
  negativePrefix : List Char
  suffix : List Char

/-- `normalizeDigits`: when the locale's zero glyph is not ASCII `0`,
replace every occurrence of each digit glyph by its decimal index
(`String(index)`). -/
def normalizeDigits (nf : NumberFormat) (s : List Char) : List Char :=
  if nf.digits.head? = some '0' then s
  else nf.digits.enum.foldl (fun acc di => replaceAll acc [di.2] (Nat.repr di.1).data) s

/-- `onlyDigits`: digit-normalize, then drop every non-digit character
(the source removes the runs matched by `/\D+/g`, i.e. keeps exactly the
ASCII digits). -/
def onlyDigits (nf : NumberFormat) (s : List Char) : List Char :=
  (normalizeDigits nf s).filter isAsciiDigit

/-- `onlyLocaleDigits`: keep exactly the characters that appear among the
profile's digit glyphs (the source removes everything matched by the
negated class built from `digits.join('')`). -/
def onlyLocaleDigits (nf : NumberFormat) (s : List Char) : List Char :=
  s.filter (fun c => nf.digits.contains c)

/-- `stripGroupingSeparator`: remove every occurrence of the grouping
symbol.  The absent-symbol branch is modelled from the spec (the helper
`escapeRegExp` lives in `utils.ts`, which is not among the sources; the
spec's step 6 removes occurrences of the grouping symbol and `parse`
never throws, so an absent symbol removes nothing). -/
def stripGroupingSeparator (nf : NumberFormat) (s : List Char) : List Char :=
  match nf.groupingSymbol with
  | none => s
  | some g => replaceAll s g []

/-- `stripMinusSymbol`: `str.replace('-', minusSymbol).replace(minusSymbol, '')`,
with the JavaScript coercion of an `undefined` symbol to `"undefined"`. -/
def stripMinusSymbol (nf : NumberFormat) (s : List Char) : List Char :=
  replaceFirst (replaceFirst s ['-'] (jsStrT nf.minusSymbol)) (jsStrT nf.minusSymbol) []

/-- `stripPrefixOrSuffix`: remove one occurrence each of
`negativePrefix`, `prefix`, `suffix`, in that order. -/
def stripPrefixOrSuffix (nf : NumberFormat) (s : List Char) : List Char :=
  replaceFirst (replaceFirst (replaceFirst s nf.negativePrefix []) nf.pfx []) nf.suffix []

/-- `isNegative`: the two OR-combined sign checks of the source. -/
def isNegative (nf : NumberFormat) (s : List Char) : Bool :=
  nf.negativePrefix.isPrefixOf s ||
    (jsStrT nf.minusSymbol).isPrefixOf (replaceFirst s ['-'] (jsStrT nf.minusSymbol))

/-- `insertPrefixOrSuffix`. -/
def insertPrefixOrSuffix (nf : NumberFormat) (s : List Char) (negative : Bool) : List Char :=
  (if negative then nf.negativePrefix else nf.pfx) ++ s ++ nf.suffix

/-- `normalizeDecimalSeparator`: for each recognized separator in order,
splice the text at `fromIndex` and replace the first occurrence of that
separator in the tail by the profile's decimal symbol. -/
def normalizeDecimalSeparator (nf : NumberFormat) (s : List Char) (fromIndex : Nat) : List Char :=
  DECIMAL_SEPARATORS.foldl
    (fun acc sep => acc.take fromIndex ++ replaceFirst (acc.drop fromIndex) [sep] (jsStrT nf.decimalSymbol))
    s

/-- `toFraction`: zero glyph, decimal symbol, then the tail of the text
filtered to locale digits and truncated to `maximumFractionDigits`
(`digits[0]` of an empty glyph array would be `undefined`, coerced). -/
def toFraction (nf : NumberFormat) (s : List Char) : List Char :=
  (match nf.digits with
    | [] => "undefined".data
    | d0 :: _ => [d0]) ++
  jsStrT nf.decimalSymbol ++
  (onlyLocaleDigits nf (s.drop 1)).take nf.maximumFractionDigits

/-! ### The host's locale formatting capability (modelled from the spec) -/

/-- Modelled from the spec: the glyph the host prints for the decimal
digit `d` in this profile's numbering system. -/
def glyph (nf : NumberFormat) (d : Nat) : Char := nf.digits.getD d '?'

/-- The ASCII digit character for `d < 10`. -/
def digitChar (d : Nat) : Char := Char.ofNat (48 + d)

/-- Fuel-driven little-endian base-10 digit list (structural recursion;
`leDigits` supplies enough fuel, and agrees with `Nat.digits 10`). -/
def leDigitsFuel : Nat → Nat → List Nat
  | 0, _ => []
  | fuel + 1, n => if n = 0 then [] else n % 10 :: leDigitsFuel fuel (n / 10)

/-- Little-endian base-10 digits of `n` (empty for zero). -/
def leDigits (n : Nat) : List Nat := leDigitsFuel n n

/-- Little-endian glyph list of a natural number (`[glyph 0]` for zero). -/
def leGlyphs (nf : NumberFormat) (n : Nat) : List Char :=
  if n = 0 then [glyph nf 0] else (leDigits n).map (glyph nf)

/-- Ungrouped big-endian rendering of a natural number. -/
def digitsBE (nf : NumberFormat) (n : Nat) : List Char := (leGlyphs nf n).reverse

/-- Insert the (reversed) grouping separator after every third digit of a
little-endian digit list. -/
def groupLE (g : List Char) : List Char → List Char
  | a :: b :: c :: rest =>
    if rest.isEmpty then [a, b, c] else a :: b :: c :: (g ++ groupLE g rest)
  | l => l

/-- Modelled from the spec: grouped big-endian rendering, standard
three-digit groups separated by the profile's grouping symbol. -/
def groupedBE (nf : NumberFormat) (n : Nat) : List Char :=
  match nf.groupingSymbol with
  | none => digitsBE nf n
  | some g => (groupLE g.reverse (leGlyphs nf n)).reverse

/-- Modelled from the spec (section 6): `toLocaleString` on an integer
with the profile's style and `minimumFractionDigits: 0` — the value's
digits through the locale glyphs, grouped or not, between the profile's
affixes; the host prints `∞` for an infinite value. -/
def hostFormatInteger (nf : NumberFormat) (useGrouping : Bool) (n : Option Nat) : List Char :=
  nf.pfx ++
    (match n with
      | none => ['∞']
      | some m => if useGrouping then groupedBE nf m else digitsBE nf m) ++
    nf.suffix

/-- Modelled from the spec: the host's numeric range.  A decimal numeral
at or beyond `2 ^ 1024` overflows the double range to `Infinity`. -/
def JS_OVERFLOW : Nat := 2 ^ 1024

/-- `Number` applied to an all-digit numeral: `none` is `Infinity`. -/
def jsOfNat (n : Nat) : Option Nat := if n < JS_OVERFLOW then some n else none

/-- Value of an ASCII digit string (the finite case of `Number`). -/
def charsToNat (s : List Char) : Nat := s.foldl (fun a c => 10 * a + (c.toNat - 48)) 0

/-- `isValidIntegerFormat`: the stripped input's integer portion must be
one of the two canonical renderings (grouped / ungrouped) of the parsed
integer, digit-normalized and affix-stripped. -/
def isValidIntegerFormat (nf : NumberFormat) (formattedNumber : List Char) (integerNumber : Option Nat) : Bool :=
  (stripPrefixOrSuffix nf (normalizeDigits nf (hostFormatInteger nf true integerNumber)) == formattedNumber) ||
  (stripPrefixOrSuffix nf (normalizeDigits nf (hostFormatInteger nf false integerNumber)) == formattedNumber)

/-- A JavaScript number as produced by the parser: an exact rational, or
an overflow to `±Infinity`. -/
inductive JsNumber where
  | fin (q : ℚ)
  | posInf
  | negInf
deriving DecidableEq

/-- Length of the integer-digit run at the head of `s`. -/
def intRunLen (s : List Char) : Nat := (s.takeWhile isAsciiDigit).length

/-- The integer-group lengths the regex `(0|[1-9]\d*)` tries, in
backtracking order: a leading `0` only matches alone, otherwise the
greedy run first, then shorter ones. -/
def intCandidates (s : List Char) : List Nat :=
  if s.head? = some '0' then [1] else ((List.range (intRunLen s)).reverse).map (· + 1)

/-- The anchored match of `^(0|[1-9]\d*)(?:D(\d*))?$` where `D` is the
escaped decimal symbol (`dec = none` when the profile has no truthy
decimal symbol, in which case no fractional alternative exists).
Returns (integer digits, fraction digits). -/
def matchNumber (s : List Char) (dec : Option (List Char)) : Option (List Char × Option (List Char)) :=
  (intCandidates s).findSome? fun i =>
    let intPart := s.take i
    let rest := s.drop i
    if rest = [] then some (intPart, none)
    else
      match dec with
      | some ds =>
        if ds.isPrefixOf rest ∧ (rest.drop ds.length).all isAsciiDigit then
          some (intPart, some (rest.drop ds.length))
        else none
      | none => none

/-- `Number` applied to the recomposed numeral
`(negative ? '-' : '') + int + '.' + frac`: exact rational value
`int + frac / 10 ^ |frac|` (as one quotient, so that it is computable),
with overflow to `±Infinity` at the host's range. -/
def composeNumber (negative : Bool) (intDigits fracDigits : List Char) : JsNumber :=
  let k := fracDigits.length
  let numTotal : Nat := charsToNat intDigits * 10 ^ k + charsToNat fracDigits
  if JS_OVERFLOW * 10 ^ k ≤ numTotal then (if negative then .negInf else .posInf)
  else .fin (if negative then -mkRat numTotal (10 ^ k) else mkRat numTotal (10 ^ k))

/-- `NumberFormat.parse` (source lines 53–66). -/
def parse (nf : NumberFormat) (str : Option (List Char)) : Option JsNumber :=
  match str with
  | none => none
  | some s0 =>
    if s0.isEmpty then none
    else
      let negative := isNegative nf s0
      let s1 := normalizeDigits nf s0
      let s2 := stripPrefixOrSuffix nf s1
      let s3 := stripMinusSymbol nf s2
      let decT : Option (List Char) := if truthyStr nf.decimalSymbol then nf.decimalSymbol else none
      match matchNumber (stripGroupingSeparator nf s3) decT with
      | none => none
      | some (intPart, fracPart) =>
        let pre : List Char :=
          match decT with
          | some ds => splitBefore s3 ds
          | none => s3
        if isValidIntegerFormat nf pre (jsOfNat (charsToNat intPart)) then
          some (composeNumber negative (onlyDigits nf intPart) (onlyDigits nf (fracPart.getD [])))
        else none

/-! ### Formatting a value (modelled host rendering) -/

/-- A decimal value exactly representable in a profile: sign, integer
part, and the list of fraction digits. -/
structure DecValue where
  neg : Bool
  int : Nat
  frac : List Nat

/-- Pad a fraction-digit list with trailing zeros up to the minimum. -/
def padFrac (minF : Nat) (f : List Nat) : List Nat := f ++ List.replicate (minF - f.length) 0

/-- Horner value of a big-endian digit list. -/
def natBE (f : List Nat) : Nat := f.foldl (fun a x => 10 * a + x) 0

/-- The rational value of a fraction-digit list. -/
def fracValue (f : List Nat) : ℚ := (natBE f : ℚ) / ((10 : ℚ) ^ f.length)

/-- The rational value of a `DecValue`. -/
def dvalue (v : DecValue) : ℚ :=
  let mag : ℚ := (v.int : ℚ) + fracValue v.frac
  if v.neg then -mag else mag

/-- Modelled from the spec (section 8 scenario `format(0.123456) =
"12.3457%"`): the percent style hands `v * 100` to the host renderer.
Scaling a decimal value by 100 moves two fraction digits (zero-padded)
into the integer part. -/
def scale100 (v : DecValue) : DecValue :=
  let fr2 := padFrac 2 v.frac
  ⟨v.neg, 100 * v.int + natBE (fr2.take 2), fr2.drop 2⟩

/-- Modelled from the spec (sections 4.3 and 8): the host rendering of a
value with the profile's default fraction bounds — the value first
scaled by 100 under the percent style, then grouped integer digits, the
decimal symbol and the fraction digits padded to the minimum, between
the profile's affixes.  Only values whose (scaled) fraction fits the
bounds are modelled (rounding of excess digits is outside the model). -/
def formatValue (nf : NumberFormat) (v : DecValue) : List Char :=
  let w := if nf.style == NumberFormatStyle.percent then scale100 v else v
  let fr := padFrac nf.minimumFractionDigits w.frac
  let body := groupedBE nf w.int ++
    (if fr.isEmpty then [] else jsStrT nf.decimalSymbol ++ fr.map (glyph nf))
  insertPrefixOrSuffix nf body w.neg

/-- `NumberFormat.format` with the default options: empty for an absent
value, the host rendering otherwise. -/
def format (nf : NumberFormat) (value : Option DecValue) : List Char :=
  match value with
  | none => []
  | some v => formatValue nf v

/-! ### The constructor (probe decomposition to profile) -/

/-- The part types of the host's `formatToParts` decomposition that the
constructor inspects (`lit` covers every other literal part). -/
inductive PartType where
  | integer | decimal | group | minusSign | fraction | lit
deriving DecidableEq

/-- One `(type, value)` part of the probe decomposition. -/
structure Part where
  type : PartType
  value : List Char

/-- `Array.prototype.findIndex`: first index satisfying the predicate,
`-1` when none does. -/
def jsFindIndex (parts : List Part) (t : PartType) : Int :=
  match parts.findIdx? (fun pt => pt.type == t) with
  | some i => (i : Int)
  | none => -1

/-- `Array.prototype.slice(start, stop)` with a possibly negative
`stop` (counted from the end, as in JavaScript). -/
def jsSliceTake (l : List Part) (start : Nat) (stop : Int) : List Part :=
  let stopN : Nat := if stop < 0 then l.length - (-stop).toNat else min stop.toNat l.length
  (l.take stopN).drop start

/-- `Array.prototype.slice(start)` with a non-negative `start`. -/
def jsSliceFrom (l : List Part) (start : Int) : List Part :=
  if start < 0 then l.drop (l.length - (-start).toNat) else l.drop start.toNat

/-- Concatenate the literal values of a part list. -/
def joinValues (l : List Part) : List Char := (l.map Part.value).flatten

/-- The `NumberFormat` constructor (source lines 23–51) applied to the
caller's `formatStyle`, the probe decomposition `parts`, the per-digit
glyphs, the caller's `precision`, and the host's resolved default
fraction bounds. -/
def mkNumberFormat (style : NumberFormatStyle) (parts : List Part) (digitGlyphs : List Char)
    (precision : Option Nat) (resolvedMin resolvedMax : Nat) : NumberFormat :=
  let decS := (parts.find? (fun pt => pt.type == .decimal)).map Part.value
  let grpS := (parts.find? (fun pt => pt.type == .group)).map Part.value
  let msS := (parts.find? (fun pt => pt.type == .minusSign)).map Part.value
  let bounds : Nat × Nat :=
    match decS, precision with
    | none, _ => (0, 0)
    | some _, some pr => (pr, pr)
    | some _, none => (resolvedMin, resolvedMax)
  let intIdx := jsFindIndex parts .integer
  let fracIdx := jsFindIndex parts .fraction
  { style := style
    digits := digitGlyphs
    decimalSymbol := decS
    groupingSymbol := grpS
    minusSymbol := msS
    minimumFractionDigits := bounds.1
    maximumFractionDigits := bounds.2
    pfx := joinValues (jsSliceTake parts 1 intIdx)
    negativePrefix := joinValues (jsSliceTake parts 0 intIdx)
    suffix := joinValues (jsSliceFrom parts (fracIdx + 1)) }

/-! ### Concrete profiles (probe decompositions of `-123456.768`,
modelled from the spec's concrete scenarios) -/

/-- The `en` Decimal probe decomposition of `-123456.768`. -/
def enDecimalParts : List Part :=
  [⟨.minusSign, "-".data⟩, ⟨.integer, "123".data⟩, ⟨.group, ",".data⟩,
   ⟨.integer, "456".data⟩, ⟨.decimal, ".".data⟩, ⟨.fraction, "768".data⟩]

/-- The `en` Decimal profile. -/
def enDecimal : NumberFormat :=
  mkNumberFormat .decimal enDecimalParts "0123456789".data none 0 3

/-- The `en`/EUR Currency probe decomposition of `-123456.768`
(rendered `-€123,456.77`). -/
def enEuroParts : List Part :=
  [⟨.minusSign, "-".data⟩, ⟨.lit, "€".data⟩, ⟨.integer, "123".data⟩, ⟨.group, ",".data⟩,
   ⟨.integer, "456".data⟩, ⟨.decimal, ".".data⟩, ⟨.fraction, "77".data⟩]

/-- The `en`/EUR Currency profile. -/
def enEuro : NumberFormat :=
  mkNumberFormat .currency enEuroParts "0123456789".data none 2 2

/-- An Arabic (`ar-EG`-like) Decimal probe decomposition of
`-123456.768`, with Arabic-Indic digit glyphs. -/
def arDecimalParts : List Part :=
  [⟨.minusSign, "-".data⟩, ⟨.integer, "١٢٣".data⟩, ⟨.group, "٬".data⟩,
   ⟨.integer, "٤٥٦".data⟩, ⟨.decimal, "٫".data⟩, ⟨.fraction, "٧٦٨".data⟩]

/-- The Arabic Decimal profile. -/
def arDecimal : NumberFormat :=
  mkNumberFormat .decimal arDecimalParts "٠١٢٣٤٥٦٧٨٩".data none 0 3

/-- The `en` Percent probe decomposition of `-123456.768` (rendered
`-12,345,677%`: no decimal and no fraction part occurs). -/
def enPercentParts : List Part :=
  [⟨.minusSign, "-".data⟩, ⟨.integer, "12".data⟩, ⟨.group, ",".data⟩,
   ⟨.integer, "345".data⟩, ⟨.group, ",".data⟩, ⟨.integer, "677".data⟩, ⟨.lit, "%".data⟩]

/-- The `en` Percent profile. -/
def enPercent : NumberFormat :=
  mkNumberFormat .percent enPercentParts "0123456789".data none 0 0


/-! ### Helper lemmas on the string operations -/

theorem replaceFirst_nil_pat (s r : List Char) : replaceFirst s [] r = r ++ s := by
  cases s <;> rfl

theorem occursIn_ne_nil {s p : List Char} (h : occursIn s p = false) : p ≠ [] := by
  intro hp
  subst hp
  cases s <;> simp [occursIn, List.isPrefixOf] at h

theorem replaceFirst_no_occ (s : List Char) {p : List Char} (r : List Char)
    (h : occursIn s p = false) : replaceFirst s p r = s := by
  induction s with
  | nil =>
    obtain ⟨p0, ps, hp⟩ := List.exists_cons_of_ne_nil (occursIn_ne_nil h)
    rw [hp]
    rfl
  | cons c t ih =>
    obtain ⟨p0, ps, hp⟩ := List.exists_cons_of_ne_nil (occursIn_ne_nil h)
    rw [hp] at h ⊢
    simp only [occursIn, Bool.or_eq_false_iff] at h
    simp only [replaceFirst, h.1, Bool.false_eq_true, if_false]
    rw [← hp, ih]
    rw [hp]
    exact h.2


/-! ### Claims -/

/-- C4.  Null propagation: for every profile, `parse(profile, null)` and
`parse(profile, "")` are both null. -/
theorem claim_C4_null_propagation (nf : NumberFormat) :
    parse nf none = none ∧ parse nf (some "".data) = none := by
  exact ⟨rfl, rfl⟩

/-- C4 witness at a concrete profile. -/
theorem claim_C4_null_propagation_witness :
    parse enDecimal none = none ∧ parse enDecimal (some "".data) = none :=
  claim_C4_null_propagation enDecimal

/-- C3.  `parse` never throws: for every profile (symbols present or
absent) and every input (null, empty or arbitrary), `parse` is a total
function whose result is either a number or null. -/
theorem claim_C3_parse_total (nf : NumberFormat) (str : Option (List Char)) :
    parse nf str = none ∨ ∃ j : JsNumber, parse nf str = some j := by
  cases h : parse nf str with
  | none => exact Or.inl rfl
  | some j => exact Or.inr ⟨j, rfl⟩

/-- C2 amended: grouping validation on the `en` Decimal profile — the
claim's own concrete scenario: the correctly grouped text `"1,234"` and
the ungrouped text `"1234"` both parse to `1234`, while the wrongly
grouped `"1,23,4"` (same digits) parses to null.  The claim's universal
acceptance clause does not extend to every profile (see the
counterexample). -/
theorem claim_C2_grouping_validation :
    parse enDecimal (some "1,234".data) = some (.fin 1234) ∧
    parse enDecimal (some "1234".data) = some (.fin 1234) ∧
    parse enDecimal (some "1,23,4".data) = none := by
  refine ⟨by decide, by decide, by decide⟩

/-- C2 counterexample: the claim's universal acceptance clause fails on
the `en` Percent profile: `"1,234"` is exactly the correctly grouped
rendering of the digits `1234` under the profile's grouping rule, yet
it parses to null — `isValidIntegerFormat` appends the derived suffix
(the whole probe rendering, per C8) to both re-renderings, so neither
comparand can equal the stripped digit input. -/
theorem claim_C2_counterexample :
    groupedBE enPercent 1234 = "1,234".data ∧
    parse enPercent (some "1,234".data) = none := by
  refine ⟨by decide, by decide⟩

/-- C5 counterexample: `stripPrefixOrSuffix` is not idempotent on the
`en` Decimal profile at the input `"--1"`: one strip yields `"-1"`, a
second strip yields `"1"`. -/
theorem claim_C5_counterexample :
    stripPrefixOrSuffix enDecimal (stripPrefixOrSuffix enDecimal "--1".data) ≠
      stripPrefixOrSuffix enDecimal "--1".data := by
  decide

/-- C5 amended: stripping is idempotent on every string whose once-
stripped form contains no further occurrence of the profile's
`negativePrefix`, `prefix` and `suffix` (each condition waived for an
empty affix, which strips to a no-op). -/
theorem claim_C5_amended_idempotent (nf : NumberFormat) (s : List Char)
    (h1 : nf.negativePrefix = [] ∨ occursIn (stripPrefixOrSuffix nf s) nf.negativePrefix = false)
    (h2 : nf.pfx = [] ∨ occursIn (stripPrefixOrSuffix nf s) nf.pfx = false)
    (h3 : nf.suffix = [] ∨ occursIn (stripPrefixOrSuffix nf s) nf.suffix = false) :
    stripPrefixOrSuffix nf (stripPrefixOrSuffix nf s) = stripPrefixOrSuffix nf s := by
  set t := stripPrefixOrSuffix nf s with ht
  have step1 : replaceFirst t nf.negativePrefix [] = t := by
    rcases h1 with h | h
    · rw [h, replaceFirst_nil_pat, List.nil_append]
    · exact replaceFirst_no_occ t [] h
  have step2 : replaceFirst t nf.pfx [] = t := by
    rcases h2 with h | h
    · rw [h, replaceFirst_nil_pat, List.nil_append]
    · exact replaceFirst_no_occ t [] h
  have step3 : replaceFirst t nf.suffix [] = t := by
    rcases h3 with h | h
    · rw [h, replaceFirst_nil_pat, List.nil_append]
    · exact replaceFirst_no_occ t [] h
  show replaceFirst (replaceFirst (replaceFirst t nf.negativePrefix []) nf.pfx []) nf.suffix [] = t
  rw [step1, step2, step3]

/-- C5 amended, witness: on the `en`/EUR profile the string `"€1"` strips
to `"1"`, and stripping that again changes nothing. -/
theorem claim_C5_amended_idempotent_witness :
    stripPrefixOrSuffix enEuro (stripPrefixOrSuffix enEuro "€1".data) =
      stripPrefixOrSuffix enEuro "€1".data :=
  claim_C5_amended_idempotent enEuro "€1".data (Or.inr (by decide)) (Or.inr (by decide))
    (Or.inl (by decide))

/-! ### C6: normalizeDecimalSeparator -/

/-- The claim's reading of `normalizeDecimalSeparator`: EVERY occurrence
at or after `fromIndex` of each recognized separator is rewritten into
the profile's decimal symbol. -/
def normalizeDecimalSeparatorEvery (nf : NumberFormat) (s : List Char) (fromIndex : Nat) : List Char :=
  s.take fromIndex ++
    DECIMAL_SEPARATORS.foldl (fun acc sep => replaceAll acc [sep] (jsStrT nf.decimalSymbol))
      (s.drop fromIndex)

/-- C6 counterexample: on the `en` Decimal profile, the input `",,"` at
index 0 is rewritten to `".,"` by the source (only the first comma),
while the claim requires `".."` (every comma). -/
theorem claim_C6_counterexample :
    normalizeDecimalSeparator enDecimal ",,".data 0 = ".,".data ∧
    normalizeDecimalSeparatorEvery enDecimal ",,".data 0 = "..".data ∧
    normalizeDecimalSeparator enDecimal ",,".data 0 ≠
      normalizeDecimalSeparatorEvery enDecimal ",,".data 0 := by
  refine ⟨by decide, by decide, by decide⟩

theorem replaceFirst_nil_str (p r : List Char) (hp : p ≠ []) : replaceFirst [] p r = [] := by
  obtain ⟨p0, ps, hpe⟩ := List.exists_cons_of_ne_nil hp
  rw [hpe]
  rfl

theorem foldl_splice (seps : List Char) (s r : List Char) (k : Nat) :
    seps.foldl (fun acc sep => acc.take k ++ replaceFirst (acc.drop k) [sep] r) s =
      s.take k ++ seps.foldl (fun acc sep => replaceFirst acc [sep] r) (s.drop k) := by
  induction seps generalizing s with
  | nil => simp
  | cons sep rest ih =>
    simp only [List.foldl_cons]
    rw [ih]
    by_cases hk : k ≤ s.length
    · have h1 : (s.take k ++ replaceFirst (s.drop k) [sep] r).take k = s.take k :=
        List.take_left' (List.length_take_of_le hk)
      have h2 : (s.take k ++ replaceFirst (s.drop k) [sep] r).drop k = replaceFirst (s.drop k) [sep] r :=
        List.drop_left' (List.length_take_of_le hk)
      rw [h1, h2]
    · have hlen : s.length ≤ k := Nat.le_of_not_le hk
      simp [List.drop_of_length_le hlen, List.take_of_length_le hlen, replaceFirst_nil_str]

/-- C6 amended: `normalizeDecimalSeparator` keeps the text before
`fromIndex` unchanged and rewrites, for each of the three recognized
separators in order (comma, period, Arabic decimal separator), only the
FIRST occurrence of that separator at or after `fromIndex` into the
profile's decimal symbol; later occurrences are left as they are. -/
theorem claim_C6_amended_first_occurrence (nf : NumberFormat) (s : List Char) (fromIndex : Nat) :
    normalizeDecimalSeparator nf s fromIndex =
      s.take fromIndex ++
        DECIMAL_SEPARATORS.foldl (fun acc sep => replaceFirst acc [sep] (jsStrT nf.decimalSymbol))
          (s.drop fromIndex) ∧
    (normalizeDecimalSeparator nf s fromIndex).take fromIndex = s.take fromIndex := by
  have h := foldl_splice DECIMAL_SEPARATORS s (jsStrT nf.decimalSymbol) fromIndex
  constructor
  · exact h
  · show (normalizeDecimalSeparator nf s fromIndex).take fromIndex = s.take fromIndex
    rw [show normalizeDecimalSeparator nf s fromIndex =
      DECIMAL_SEPARATORS.foldl (fun acc sep => acc.take fromIndex ++ replaceFirst (acc.drop fromIndex) [sep] (jsStrT nf.decimalSymbol)) s from rfl]
    rw [h]
    by_cases hk : fromIndex ≤ s.length
    · exact List.take_left' (List.length_take_of_le hk)
    · have hlen : s.length ≤ fromIndex := Nat.le_of_not_le hk
      rw [List.drop_of_length_le hlen, List.take_of_length_le hlen]
      have hfold : DECIMAL_SEPARATORS.foldl (fun acc sep => replaceFirst acc [sep] (jsStrT nf.decimalSymbol)) ([] : List Char) = [] := by
        simp [DECIMAL_SEPARATORS, replaceFirst_nil_str]
      rw [hfold, List.append_nil, List.take_of_length_le hlen]

/-! ### C7: toFraction -/

/-- The claim's reading of `toFraction`: the literal ASCII `"0"`,
then the decimal symbol, then the tail filtered to digit glyphs and
truncated to `maximumFractionDigits`. -/
def toFractionClaim (nf : NumberFormat) (s : List Char) : List Char :=
  '0' :: (jsStrT nf.decimalSymbol ++
    ((s.drop 1).filter (fun c => nf.digits.contains c)).take nf.maximumFractionDigits)

/-- C7 counterexample: on the Arabic Decimal profile (zero glyph `٠`),
`toFraction "٫٥"` is `"٠٫٥"` — it starts with the locale's zero glyph,
not with the ASCII `"0"` the claim prescribes. -/
theorem claim_C7_counterexample :
    toFraction arDecimal "٫٥".data = "٠٫٥".data ∧
    toFractionClaim arDecimal "٫٥".data = "0٫٥".data ∧
    toFraction arDecimal "٫٥".data ≠ toFractionClaim arDecimal "٫٥".data := by
  refine ⟨by decide, by decide, by decide⟩

/-- C7 amended: for every profile with a nonempty glyph table,
`toFraction` returns the profile's ZERO GLYPH (not the ASCII `"0"`),
then the decimal symbol, then the remaining characters filtered to the
profile's digit glyphs and truncated to at most
`maximumFractionDigits` characters. -/
theorem claim_C7_amended_zero_glyph (nf : NumberFormat) (s : List Char)
    (d0 : Char) (rest : List Char) (h : nf.digits = d0 :: rest) :
    toFraction nf s =
      d0 :: (jsStrT nf.decimalSymbol ++
        ((s.drop 1).filter (fun c => nf.digits.contains c)).take nf.maximumFractionDigits) := by
  simp [toFraction, onlyLocaleDigits, h]

/-- C7 amended, witness at the `en` Decimal profile. -/
theorem claim_C7_amended_zero_glyph_witness :
    toFraction enDecimal ".51239".data =
      '0' :: (jsStrT enDecimal.decimalSymbol ++
        ((".51239".data.drop 1).filter (fun c => enDecimal.digits.contains c)).take
          enDecimal.maximumFractionDigits) :=
  claim_C7_amended_zero_glyph enDecimal ".51239".data '0' "123456789".data (by decide)

/-! ### C8: suffix derivation -/

/-- Index of the last part of type `t` (`none` when there is none). -/
def lastIdxOfType (parts : List Part) (t : PartType) : Option Nat :=
  (parts.reverse.findIdx? (fun pt => pt.type == t)).map (fun i => parts.length - 1 - i)

/-- The claim's reading of the suffix: everything strictly after the
last fraction-digit part; when no fraction part occurs, everything
strictly after the last integer-digit part. -/
def suffixSpec (parts : List Part) : List Char :=
  match lastIdxOfType parts .fraction with
  | some i => joinValues (parts.drop (i + 1))
  | none =>
    match lastIdxOfType parts .integer with
    | some i => joinValues (parts.drop (i + 1))
    | none => []

/-- C8 counterexample: for the `en` Percent probe decomposition (no
fraction part occurs), the constructed suffix is the WHOLE probe
rendering `"-12,345,677%"` (`findIndex` returns `-1`, so `slice(0)`
keeps every part), while the claim's suffix is `"%"`. -/
theorem claim_C8_counterexample :
    enPercent.suffix = "-12,345,677%".data ∧
    suffixSpec enPercentParts = "%".data ∧
    enPercent.suffix ≠ suffixSpec enPercentParts := by
  refine ⟨by decide, by decide, by decide⟩

/-- C8 amended: the suffix is the concatenation of the values of all
parts strictly after the FIRST fraction-digit part; when no fraction
part occurs, `findIndex` yields `-1` and the suffix degenerates to the
concatenation of ALL the parts' values (the whole probe rendering). -/
theorem claim_C8_amended_suffix (style : NumberFormatStyle) (parts : List Part)
    (digitGlyphs : List Char) (precision : Option Nat) (resolvedMin resolvedMax : Nat) :
    (∀ i, parts.findIdx? (fun pt => pt.type == PartType.fraction) = some i →
      (mkNumberFormat style parts digitGlyphs precision resolvedMin resolvedMax).suffix =
        joinValues (parts.drop (i + 1))) ∧
    (parts.findIdx? (fun pt => pt.type == PartType.fraction) = none →
      (mkNumberFormat style parts digitGlyphs precision resolvedMin resolvedMax).suffix =
        joinValues parts) := by
  constructor
  · intro i hi
    show joinValues (jsSliceFrom parts (jsFindIndex parts .fraction + 1)) = _
    rw [jsFindIndex, hi]
    simp only [jsSliceFrom]
    rw [if_neg (by omega)]
    have h2 : ((i : Int) + 1).toNat = i + 1 := by omega
    rw [h2]
  · intro hn
    show joinValues (jsSliceFrom parts (jsFindIndex parts .fraction + 1)) = _
    rw [jsFindIndex, hn]
    simp [jsSliceFrom]

/-- C8 amended, witness: on the `en` Decimal probe decomposition the
fraction part is at index 5 and the suffix is empty; on the `en`
Percent decomposition there is no fraction part and the suffix is the
whole rendering. -/
theorem claim_C8_amended_suffix_witness :
    (mkNumberFormat .decimal enDecimalParts "0123456789".data none 0 3).suffix =
      joinValues (enDecimalParts.drop 6) ∧
    (mkNumberFormat .percent enPercentParts "0123456789".data none 0 0).suffix =
      joinValues enPercentParts :=
  ⟨(claim_C8_amended_suffix .decimal enDecimalParts "0123456789".data none 0 3).1 5 (by decide),
   (claim_C8_amended_suffix .percent enPercentParts "0123456789".data none 0 0).2 (by decide)⟩

/-! ### C9: forced zero fraction bounds -/

/-- C9.  For every constructor input: an absent `decimalSymbol` forces
both fraction bounds to 0 regardless of the requested precision;
otherwise an explicitly supplied precision sets both bounds to that
precision. -/
theorem claim_C9_fraction_bounds (style : NumberFormatStyle) (parts : List Part)
    (digitGlyphs : List Char) (precision : Option Nat) (resolvedMin resolvedMax : Nat) :
    ((mkNumberFormat style parts digitGlyphs precision resolvedMin resolvedMax).decimalSymbol = none →
      (mkNumberFormat style parts digitGlyphs precision resolvedMin resolvedMax).minimumFractionDigits = 0 ∧
      (mkNumberFormat style parts digitGlyphs precision resolvedMin resolvedMax).maximumFractionDigits = 0) ∧
    (∀ pr : Nat,
      (mkNumberFormat style parts digitGlyphs precision resolvedMin resolvedMax).decimalSymbol ≠ none →
      precision = some pr →
      (mkNumberFormat style parts digitGlyphs precision resolvedMin resolvedMax).minimumFractionDigits = pr ∧
      (mkNumberFormat style parts digitGlyphs precision resolvedMin resolvedMax).maximumFractionDigits = pr) := by
  simp only [mkNumberFormat]
  cases hfind : parts.find? (fun pt => pt.type == PartType.decimal) with
  | none => cases precision <;> simp
  | some part => cases precision <;> simp

/-- C9 witness: the `en` Percent decomposition has no decimal part, so a
requested precision of 4 is overridden to bounds 0/0; the `en` Decimal
decomposition has one, so both bounds become 4. -/
theorem claim_C9_fraction_bounds_witness :
    ((mkNumberFormat .percent enPercentParts "0123456789".data (some 4) 0 0).minimumFractionDigits = 0 ∧
     (mkNumberFormat .percent enPercentParts "0123456789".data (some 4) 0 0).maximumFractionDigits = 0) ∧
    ((mkNumberFormat .decimal enDecimalParts "0123456789".data (some 4) 0 3).minimumFractionDigits = 4 ∧
     (mkNumberFormat .decimal enDecimalParts "0123456789".data (some 4) 0 3).maximumFractionDigits = 4) :=
  ⟨(claim_C9_fraction_bounds .percent enPercentParts "0123456789".data (some 4) 0 0).1 (by decide),
   (claim_C9_fraction_bounds .decimal enDecimalParts "0123456789".data (some 4) 0 3).2 4
     (by decide) rfl⟩

/-! ### Generic lemmas for the round-trip development -/

theorem isPrefixOf_self_append (l t : List Char) : l.isPrefixOf (l ++ t) = true := by
  rw [List.isPrefixOf_iff_prefix]
  exact List.prefix_append l t

theorem isPrefixOf_imp_occursIn {p s : List Char} (h : p.isPrefixOf s = true) :
    occursIn s p = true := by
  cases s with
  | nil =>
    have : p = [] := List.prefix_nil.mp (List.isPrefixOf_iff_prefix.mp h)
    simp [occursIn, this]
  | cons c t => simp [occursIn, h]

theorem occursIn_false_of_head_notin {p0 : Char} (ps s : List Char)
    (h : ∀ c ∈ s, c ≠ p0) : occursIn s (p0 :: ps) = false := by
  induction s with
  | nil => rfl
  | cons c t ih =>
    have hc : c ≠ p0 := h c (List.mem_cons_self c t)
    have hpre : (p0 :: ps).isPrefixOf (c :: t) = false := by
      simp [List.isPrefixOf]
      intro he
      exact absurd he.symm hc
    simp only [occursIn, hpre, Bool.false_or]
    exact ih (fun x hx => h x (List.mem_cons_of_mem c hx))

theorem replaceFirst_pattern_front (p0 : Char) (ps b r : List Char) :
    replaceFirst ((p0 :: ps) ++ b) (p0 :: ps) r = r ++ b := by
  have h1 : (p0 :: ps).isPrefixOf (p0 :: (ps ++ b)) = true := isPrefixOf_self_append (p0 :: ps) b
  show replaceFirst (p0 :: (ps ++ b)) (p0 :: ps) r = r ++ b
  rw [replaceFirst, if_pos h1]
  have h2 : List.drop (p0 :: ps).length (p0 :: (ps ++ b)) = b := by
    simp only [List.length_cons, List.drop_succ_cons]
    exact List.drop_left ps b
  rw [h2]

theorem replaceFirst_append_left {p0 : Char} (ps : List Char) (a b r : List Char)
    (h : ∀ c ∈ a, c ≠ p0) :
    replaceFirst (a ++ b) (p0 :: ps) r = a ++ replaceFirst b (p0 :: ps) r := by
  induction a with
  | nil => rfl
  | cons c t ih =>
    have hc : c ≠ p0 := h c (List.mem_cons_self c t)
    show replaceFirst (c :: (t ++ b)) (p0 :: ps) r = c :: (t ++ replaceFirst b (p0 :: ps) r)
    rw [replaceFirst, if_neg]
    · rw [ih (fun y hy => h y (List.mem_cons_of_mem c hy))]
    · simp only [List.isPrefixOf, Bool.and_eq_true, beq_iff_eq, not_and]
      intro he
      exact absurd he.symm hc

theorem replaceFirst_no_occ_of_head {p0 : Char} (ps s r : List Char)
    (h : ∀ c ∈ s, c ≠ p0) : replaceFirst s (p0 :: ps) r = s :=
  replaceFirst_no_occ s r (occursIn_false_of_head_notin ps s h)

theorem replaceAll_singleton (s : List Char) (x : Char) :
    replaceAll s [x] [] = s.filter (fun c => c != x) := by
  induction s with
  | nil => rfl
  | cons c t ih =>
    by_cases hc : x = c
    · subst hc
      show replaceAllFuel (t.length + 1) (x :: t) [x] [] = _
      rw [replaceAllFuel, if_pos (by simp [List.isPrefixOf])]
      have hd : List.drop ([x] : List Char).length (x :: t) = t := by simp
      rw [hd]
      show replaceAll t [x] [] = _
      rw [ih]
      simp
    · show replaceAllFuel (t.length + 1) (c :: t) [x] [] = _
      rw [replaceAllFuel, if_neg]
      · show c :: replaceAll t [x] [] = _
        rw [ih]
        have hcx : (c != x) = true := bne_iff_ne.mpr (fun he => hc he.symm)
        simp [List.filter_cons, hcx]
      · intro hcond
        have h2 := hcond.2
        simp only [List.isPrefixOf, Bool.and_eq_true, beq_iff_eq] at h2
        exact hc h2.1

theorem splitBefore_no_occ {p0 : Char} (ps s : List Char) (h : ∀ c ∈ s, c ≠ p0) :
    splitBefore s (p0 :: ps) = s := by
  induction s with
  | nil => rfl
  | cons c t ih =>
    have hc : c ≠ p0 := h c (List.mem_cons_self c t)
    rw [splitBefore, if_neg]
    · rw [ih (fun y hy => h y (List.mem_cons_of_mem c hy))]
    · simp [List.isPrefixOf]
      intro he
      exact absurd he.symm hc

theorem splitBefore_append_sep (a b : List Char) (x : Char) (h : ∀ c ∈ a, c ≠ x) :
    splitBefore (a ++ x :: b) [x] = a := by
  induction a with
  | nil =>
    show splitBefore (x :: b) [x] = []
    rw [splitBefore, if_pos]
    exact ⟨by simp, by simp [List.isPrefixOf]⟩
  | cons c t ih =>
    have hc : c ≠ x := h c (List.mem_cons_self c t)
    show splitBefore (c :: (t ++ x :: b)) [x] = c :: t
    rw [splitBefore, if_neg]
    · rw [ih (fun y hy => h y (List.mem_cons_of_mem c hy))]
    · simp [List.isPrefixOf]
      intro he
      exact absurd he.symm hc

theorem splitBefore_cons_head {s p : List Char} {x : Char} {xs : List Char}
    (h : splitBefore s p = x :: xs) : s.head? = some x := by
  cases s with
  | nil => simp [splitBefore] at h
  | cons c t =>
    rw [splitBefore] at h
    by_cases hc : p ≠ [] ∧ p.isPrefixOf (c :: t)
    · rw [if_pos hc] at h
      exact absurd h (by simp)
    · rw [if_neg hc] at h
      have hcx : c = x := (List.cons_eq_cons.mp h).1
      simp [hcx]

/-! ### Numeric digit lemmas -/

theorem digitChar_isDigit {x : Nat} (h : x < 10) : isAsciiDigit (digitChar x) = true := by
  interval_cases x <;> decide

theorem digitChar_toNat {x : Nat} (h : x < 10) : (digitChar x).toNat - 48 = x := by
  interval_cases x <;> decide

theorem digitChar_ne_zero {x : Nat} (h : x < 10) (hx : x ≠ 0) : digitChar x ≠ '0' := by
  interval_cases x <;> simp_all <;> decide

theorem charsToNat_aux (s : List Char) (a : Nat) :
    s.foldl (fun a c => 10 * a + (c.toNat - 48)) a = a * 10 ^ s.length + charsToNat s := by
  induction s generalizing a with
  | nil => simp [charsToNat]
  | cons c t ih =>
    show t.foldl _ (10 * a + (c.toNat - 48)) = _
    rw [ih]
    show _ = a * 10 ^ (t.length + 1) + charsToNat (c :: t)
    have hc : charsToNat (c :: t) = t.foldl (fun a c => 10 * a + (c.toNat - 48)) (10 * 0 + (c.toNat - 48)) := rfl
    rw [hc, ih]
    ring

theorem charsToNat_cons (c : Char) (t : List Char) :
    charsToNat (c :: t) = (c.toNat - 48) * 10 ^ t.length + charsToNat t := by
  show t.foldl _ (10 * 0 + (c.toNat - 48)) = _
  rw [charsToNat_aux]
  ring_nf

theorem charsToNat_lt (s : List Char) (h : ∀ c ∈ s, isAsciiDigit c = true) :
    charsToNat s < 10 ^ s.length := by
  induction s with
  | nil => simp [charsToNat]
  | cons c t ih =>
    rw [charsToNat_cons]
    have hd : isAsciiDigit c = true := h c (List.mem_cons_self c t)
    have hc9 : c.toNat - 48 ≤ 9 := by
      simp only [isAsciiDigit, Bool.and_eq_true, decide_eq_true_eq] at hd
      omega
    have ht := ih (fun x hx => h x (List.mem_cons_of_mem c hx))
    have : 10 ^ (c :: t).length = 10 * 10 ^ t.length := by
      simp [List.length_cons]
      ring
    rw [this]
    calc (c.toNat - 48) * 10 ^ t.length + charsToNat t
        ≤ 9 * 10 ^ t.length + charsToNat t := by
          exact Nat.add_le_add_right (Nat.mul_le_mul_right _ hc9) _
      _ < 9 * 10 ^ t.length + 10 ^ t.length := by omega
      _ = 10 * 10 ^ t.length := by ring

theorem natBE_aux (m : List Nat) (a : Nat) :
    m.foldl (fun a x => 10 * a + x) a = a * 10 ^ m.length + natBE m := by
  induction m generalizing a with
  | nil => simp [natBE]
  | cons x t ih =>
    show t.foldl _ (10 * a + x) = _
    rw [ih]
    have hx : natBE (x :: t) = t.foldl (fun a x => 10 * a + x) (10 * 0 + x) := rfl
    rw [hx, ih]
    show _ = a * 10 ^ (t.length + 1) + _
    ring

theorem natBE_lt (m : List Nat) (h : ∀ x ∈ m, x < 10) : natBE m < 10 ^ m.length := by
  induction m with
  | nil => simp [natBE]
  | cons x t ih =>
    have hx : natBE (x :: t) = x * 10 ^ t.length + natBE t := by
      show t.foldl _ (10 * 0 + x) = _
      rw [natBE_aux]
      ring_nf
    rw [hx]
    have h9 : x ≤ 9 := by have := h x (List.mem_cons_self x t); omega
    have ht := ih (fun y hy => h y (List.mem_cons_of_mem x hy))
    have hlen : 10 ^ (x :: t).length = 10 * 10 ^ t.length := by
      simp [List.length_cons]
      ring
    rw [hlen]
    calc x * 10 ^ t.length + natBE t
        ≤ 9 * 10 ^ t.length + natBE t := Nat.add_le_add_right (Nat.mul_le_mul_right _ h9) _
      _ < 9 * 10 ^ t.length + 10 ^ t.length := by omega
      _ = 10 * 10 ^ t.length := by ring

theorem natBE_pad (f : List Nat) (z : Nat) :
    natBE (f ++ List.replicate z 0) = natBE f * 10 ^ z := by
  induction z generalizing f with
  | zero => simp [natBE]
  | succ n ih =>
    have : f ++ List.replicate (n + 1) 0 = (f ++ [0]) ++ List.replicate n 0 := by
      simp [List.replicate_succ]
    rw [this, ih]
    have hstep : natBE (f ++ [0]) = 10 * natBE f := by
      show (f ++ [0]).foldl _ 0 = _
      rw [List.foldl_append]
      show 10 * (f.foldl _ 0) + 0 = _
      rfl
    rw [hstep]
    ring

theorem charsToNat_map_digitChar (m : List Nat) (h : ∀ x ∈ m, x < 10) :
    charsToNat (m.map digitChar) = natBE m := by
  show (m.map digitChar).foldl (fun a c => 10 * a + (c.toNat - 48)) 0 = natBE m
  rw [List.foldl_map]
  exact List.foldl_ext _ _ 0 (fun a b hb => by rw [digitChar_toNat (h b hb)])

/-! ### leDigits lemmas -/

/-- Little-endian Horner value (the inverse reading of `leDigits`). -/
def natOfLE (l : List Nat) : Nat := l.foldr (fun x acc => 10 * acc + x) 0

theorem leDigitsFuel_lt (fuel n : Nat) : ∀ x ∈ leDigitsFuel fuel n, x < 10 := by
  induction fuel generalizing n with
  | zero => intro x hx; simp [leDigitsFuel] at hx
  | succ f ih =>
    intro x hx
    rw [leDigitsFuel] at hx
    by_cases hn : n = 0
    · simp [hn] at hx
    · rw [if_neg hn] at hx
      rcases List.mem_cons.mp hx with h | h
      · subst h; exact Nat.mod_lt _ (by omega)
      · exact ih (n / 10) x h

theorem leDigits_lt (n : Nat) : ∀ x ∈ leDigits n, x < 10 := leDigitsFuel_lt n n

theorem natOfLE_leDigitsFuel (fuel n : Nat) (h : n ≤ fuel) :
    natOfLE (leDigitsFuel fuel n) = n := by
  induction fuel generalizing n with
  | zero =>
    have : n = 0 := by omega
    subst this
    rfl
  | succ f ih =>
    rw [leDigitsFuel]
    by_cases hn : n = 0
    · simp [hn, natOfLE]
    · rw [if_neg hn]
      have hdiv : n / 10 ≤ f := by
        have h1 : n / 10 < n := Nat.div_lt_self (Nat.pos_of_ne_zero hn) (by omega)
        omega
      show 10 * natOfLE (leDigitsFuel f (n / 10)) + n % 10 = n
      rw [ih (n / 10) hdiv]
      omega

theorem natOfLE_leDigits (n : Nat) : natOfLE (leDigits n) = n :=
  natOfLE_leDigitsFuel n n (Nat.le_refl n)

theorem leDigitsFuel_getLast (fuel n : Nat) (h : n ≤ fuel) (hn : n ≠ 0) :
    ∃ x, (leDigitsFuel fuel n).getLast? = some x ∧ x ≠ 0 ∧ x < 10 := by
  induction fuel generalizing n with
  | zero => omega
  | succ f ih =>
    rw [leDigitsFuel, if_neg hn]
    by_cases hd : n / 10 = 0
    · have h10 : n < 10 := by omega
      have : leDigitsFuel f (n / 10) = [] := by
        cases f with
        | zero => rfl
        | succ f2 => rw [leDigitsFuel, if_pos hd]
      rw [this]
      refine ⟨n % 10, by simp, ?_, Nat.mod_lt _ (by omega)⟩
      have : n % 10 = n := Nat.mod_eq_of_lt h10
      omega
    · have hdle : n / 10 ≤ f := by
        have h1 : n / 10 < n := Nat.div_lt_self (Nat.pos_of_ne_zero hn) (by omega)
        omega
      obtain ⟨x, hx1, hx2, hx3⟩ := ih (n / 10) hdle hd
      refine ⟨x, ?_, hx2, hx3⟩
      have hne : leDigitsFuel f (n / 10) ≠ [] := by
        intro hemp
        rw [hemp] at hx1
        simp at hx1
      rw [List.getLast?_cons, hx1]
      rfl

theorem leDigits_getLast (n : Nat) (hn : n ≠ 0) :
    ∃ x, (leDigits n).getLast? = some x ∧ x ≠ 0 ∧ x < 10 :=
  leDigitsFuel_getLast n n (Nat.le_refl n) hn

theorem leDigits_ne_nil (n : Nat) (hn : n ≠ 0) : leDigits n ≠ [] := by
  obtain ⟨x, hx, _, _⟩ := leDigits_getLast n hn
  intro hemp
  rw [hemp] at hx
  simp at hx

/-! ### Well-formed profiles and rendering-structure lemmas -/

/-- The ASCII digit glyph table. -/
def asciiDigits : List Char := "0123456789".data

/-- A profile of the shape the host construction produces for a locale
with ASCII digits under a style that applies no value rescaling
(modelled as the decimal style): single-character symbols, a nonempty
minus symbol, and `negativePrefix = minusSymbol ++ prefix` (spec
section 4.1). -/
def mkWF (d g : Option Char) (ms pfxL sfxL : List Char) (minF maxF : Nat) : NumberFormat :=
  { style := NumberFormatStyle.decimal
    digits := asciiDigits
    decimalSymbol := d.map (fun c => [c])
    groupingSymbol := g.map (fun c => [c])
    minusSymbol := some ms
    minimumFractionDigits := minF
    maximumFractionDigits := maxF
    pfx := pfxL
    negativePrefix := ms ++ pfxL
    suffix := sfxL }

theorem glyph_ascii {nf : NumberFormat} (hdig : nf.digits = asciiDigits) {x : Nat}
    (h : x < 10) : glyph nf x = digitChar x := by
  rw [glyph, hdig]
  interval_cases x <;> rfl

theorem normalizeDigits_ascii {nf : NumberFormat} (hdig : nf.digits = asciiDigits)
    (s : List Char) : normalizeDigits nf s = s := by
  rw [normalizeDigits, if_pos]
  rw [hdig]
  rfl

theorem leGlyphs_ascii {nf : NumberFormat} (hdig : nf.digits = asciiDigits) (n : Nat) :
    leGlyphs nf n = if n = 0 then ['0'] else (leDigits n).map digitChar := by
  rw [leGlyphs]
  by_cases hn : n = 0
  · rw [if_pos hn, if_pos hn, glyph_ascii hdig (by omega)]
    rfl
  · rw [if_neg hn, if_neg hn]
    exact List.map_congr_left (fun x hx => glyph_ascii hdig (leDigits_lt n x hx))

theorem digitsBE_ascii {nf : NumberFormat} (hdig : nf.digits = asciiDigits) (n : Nat) :
    digitsBE nf n = if n = 0 then ['0'] else ((leDigits n).map digitChar).reverse := by
  rw [digitsBE, leGlyphs_ascii hdig]
  by_cases hn : n = 0 <;> simp [hn]

theorem digitsBE_ne_nil {nf : NumberFormat} (hdig : nf.digits = asciiDigits) (n : Nat) :
    digitsBE nf n ≠ [] := by
  rw [digitsBE_ascii hdig]
  by_cases hn : n = 0
  · simp [hn]
  · simp only [if_neg hn, ne_eq, List.reverse_eq_nil_iff, List.map_eq_nil_iff]
    exact leDigits_ne_nil n hn

theorem digitsBE_all_digits {nf : NumberFormat} (hdig : nf.digits = asciiDigits) (n : Nat) :
    ∀ c ∈ digitsBE nf n, isAsciiDigit c = true := by
  rw [digitsBE_ascii hdig]
  by_cases hn : n = 0
  · simp only [if_pos hn]
    intro c hc
    simp at hc
    subst hc
    decide
  · simp only [if_neg hn]
    intro c hc
    rw [List.mem_reverse] at hc
    obtain ⟨x, hx, rfl⟩ := List.mem_map.mp hc
    exact digitChar_isDigit (leDigits_lt n x hx)

theorem charsToNat_digitsBE {nf : NumberFormat} (hdig : nf.digits = asciiDigits) (n : Nat) :
    charsToNat (digitsBE nf n) = n := by
  rw [digitsBE_ascii hdig]
  by_cases hn : n = 0
  · simp [hn, charsToNat]
  · rw [if_neg hn]
    rw [← List.map_reverse, charsToNat_map_digitChar _ (fun x hx => leDigits_lt n x (List.mem_reverse.mp hx))]
    show (leDigits n).reverse.foldl (fun a x => 10 * a + x) 0 = n
    rw [List.foldl_reverse]
    show (leDigits n).foldr (fun x acc => 10 * acc + x) 0 = n
    exact natOfLE_leDigits n

theorem digitsBE_head_zero {nf : NumberFormat} (hdig : nf.digits = asciiDigits) :
    digitsBE nf 0 = ['0'] := by
  rw [digitsBE_ascii hdig]
  rfl

theorem digitsBE_head_ne_zero {nf : NumberFormat} (hdig : nf.digits = asciiDigits) (n : Nat)
    (hn : n ≠ 0) : ∃ c cs, digitsBE nf n = c :: cs ∧ c ≠ '0' ∧ isAsciiDigit c = true := by
  rw [digitsBE_ascii hdig, if_neg hn]
  obtain ⟨x, hx1, hx2, hx3⟩ := leDigits_getLast n hn
  have hhead : ((leDigits n).map digitChar).reverse.head? = some (digitChar x) := by
    rw [List.head?_reverse, List.getLast?_map, hx1]
    rfl
  obtain ⟨c, cs, hcons⟩ : ∃ c cs, ((leDigits n).map digitChar).reverse = c :: cs := by
    cases hrev : ((leDigits n).map digitChar).reverse with
    | nil => rw [hrev] at hhead; simp at hhead
    | cons c cs => exact ⟨c, cs, rfl⟩
  rw [hcons] at hhead
  have hc : c = digitChar x := by simpa using hhead
  subst hc
  exact ⟨digitChar x, cs, hcons, digitChar_ne_zero hx3 hx2, digitChar_isDigit hx3⟩

theorem mem_groupLE (gr : List Char) (l : List Char) (c : Char) (h : c ∈ groupLE gr l) :
    c ∈ l ∨ c ∈ gr := by
  induction l using groupLE.induct gr with
  | case1 a b c2 rest hrest =>
    rw [groupLE, if_pos hrest] at h
    have : rest = [] := by simpa [List.isEmpty_iff] using hrest
    subst this
    exact Or.inl (by simpa using h)
  | case2 a b c2 rest hrest ih =>
    rw [groupLE, if_neg hrest] at h
    rcases List.mem_cons.mp h with h1 | h1
    · exact Or.inl (by simp [h1])
    rcases List.mem_cons.mp h1 with h2 | h2
    · exact Or.inl (by simp [h2])
    rcases List.mem_cons.mp h2 with h3 | h3
    · exact Or.inl (by simp [h3])
    rcases List.mem_append.mp h3 with h4 | h4
    · exact Or.inr h4
    · rcases ih h4 with h5 | h5
      · exact Or.inl (List.mem_cons_of_mem _ (List.mem_cons_of_mem _ (List.mem_cons_of_mem _ h5)))
      · exact Or.inr h5
  | case3 l hl =>
    rw [groupLE] at h
    · exact Or.inl h
    · exact hl

theorem filter_groupLE (x : Char) (l : List Char) (h : ∀ c ∈ l, c ≠ x) :
    (groupLE [x] l).filter (fun c => c != x) = l.filter (fun c => c != x) := by
  induction l using groupLE.induct ([x]) with
  | case1 a b c2 rest hrest =>
    rw [groupLE, if_pos hrest]
    have : rest = [] := by simpa [List.isEmpty_iff] using hrest
    subst this
    rfl
  | case2 a b c2 rest hrest ih =>
    rw [groupLE, if_neg hrest]
    have ha : (a != x) = true := bne_iff_ne.mpr (h a (by simp))
    have hb : (b != x) = true := bne_iff_ne.mpr (h b (by simp))
    have hc2 : (c2 != x) = true := bne_iff_ne.mpr (h c2 (by simp))
    have hx : (x != x) = false := by simp
    have hrest2 : ∀ c ∈ rest, c ≠ x := fun c hc =>
      h c (List.mem_cons_of_mem _ (List.mem_cons_of_mem _ (List.mem_cons_of_mem _ hc)))
    simp only [List.filter_cons, List.filter_append, ha, hb, hc2, hx, if_true, if_false,
      List.filter_nil, List.nil_append, ite_true, ite_false]
    rw [ih hrest2]
    simp
  | case3 l hl =>
    rw [groupLE]
    exact hl

theorem filter_all_true {p : Char → Bool} (l : List Char) (h : ∀ c ∈ l, p c = true) :
    l.filter p = l := List.filter_eq_self.mpr h

theorem groupedBE_none {nf : NumberFormat} (hg : nf.groupingSymbol = none) (n : Nat) :
    groupedBE nf n = digitsBE nf n := by
  rw [groupedBE, hg]

theorem mem_groupedBE_some {nf : NumberFormat} {gc : Char}
    (hg : nf.groupingSymbol = some [gc]) (n : Nat) (c : Char) (h : c ∈ groupedBE nf n) :
    c ∈ digitsBE nf n ∨ c = gc := by
  rw [groupedBE, hg] at h
  simp only [List.mem_reverse] at h
  rcases mem_groupLE _ _ _ h with h1 | h1
  · left
    rw [digitsBE, List.mem_reverse]
    exact h1
  · right
    simpa using h1

theorem strip_groupedBE {nf : NumberFormat} {gc : Char}
    (hdig : nf.digits = asciiDigits)
    (hg : nf.groupingSymbol = some [gc]) (hgd : isAsciiDigit gc = false) (n : Nat) :
    replaceAll (groupedBE nf n) [gc] [] = digitsBE nf n := by
  rw [replaceAll_singleton, groupedBE, hg]
  have hnotin : ∀ c ∈ leGlyphs nf n, c ≠ gc := by
    intro c hc hce
    subst hce
    have : isAsciiDigit c = true := by
      have := digitsBE_all_digits hdig n c (by rw [digitsBE, List.mem_reverse]; exact hc)
      exact this
    rw [hgd] at this
    cases this
  rw [List.filter_reverse]
  show (List.filter (fun c => c != gc) (groupLE [gc].reverse (leGlyphs nf n))).reverse = _
  rw [show ([gc] : List Char).reverse = [gc] from rfl]
  rw [filter_groupLE gc _ hnotin]
  rw [filter_all_true _ (fun c hc => bne_iff_ne.mpr (hnotin c hc))]
  rfl

/-! ### Stripping the affixes of a rendered value -/

theorem isPrefixOf_false_of_no_occ {p s : List Char} (h : occursIn s p = false) :
    p.isPrefixOf s = false := by
  cases hb : p.isPrefixOf s with
  | false => rfl
  | true => rw [isPrefixOf_imp_occursIn hb] at h; cases h

theorem no_occ_of_notin {m0 : Char} (ms s : List Char) (hm : m0 ∉ s) :
    occursIn s (m0 :: ms) = false :=
  occursIn_false_of_head_notin ms s (fun c hc hce => hm (hce ▸ hc))

theorem strip_step_suffix (nf : NumberFormat) (mid : List Char)
    (h4 : ∀ c ∈ nf.suffix, c ∉ mid) :
    replaceFirst (mid ++ nf.suffix) nf.suffix [] = mid := by
  cases hs : nf.suffix with
  | nil =>
    rw [List.append_nil, replaceFirst_nil_pat, List.nil_append]
  | cons s0 st =>
    have hs0 : s0 ∉ mid := h4 s0 (by rw [hs]; exact List.mem_cons_self s0 st)
    have hmid : ∀ c ∈ mid, c ≠ s0 := fun c hc hce => hs0 (hce ▸ hc)
    rw [replaceFirst_append_left st mid (s0 :: st) [] hmid]
    have hself : replaceFirst (s0 :: st) (s0 :: st) [] = [] := by
      have h := replaceFirst_pattern_front s0 st [] []
      simpa using h
    rw [hself, List.append_nil]

theorem strip_affixes_pos (nf : NumberFormat) (ms mid : List Char)
    (m0 : Char) (ms' : List Char) (hms : ms = m0 :: ms')
    (hneg : nf.negativePrefix = ms ++ nf.pfx)
    (hm0 : m0 ∉ nf.pfx ∧ m0 ∉ mid ∧ m0 ∉ nf.suffix)
    (h4 : ∀ c ∈ nf.suffix, c ∉ mid) :
    stripPrefixOrSuffix nf (nf.pfx ++ mid ++ nf.suffix) = mid := by
  rw [stripPrefixOrSuffix]
  have hstep1 : replaceFirst (nf.pfx ++ mid ++ nf.suffix) nf.negativePrefix [] =
      nf.pfx ++ mid ++ nf.suffix := by
    rw [hneg, hms]
    show replaceFirst _ (m0 :: (ms' ++ nf.pfx)) [] = _
    apply replaceFirst_no_occ_of_head
    intro c hc hce
    rcases List.mem_append.mp (hce ▸ hc) with h | h
    · rcases List.mem_append.mp h with h1 | h1
      · exact hm0.1 h1
      · exact hm0.2.1 h1
    · exact hm0.2.2 h
  rw [hstep1]
  have hstep2 : replaceFirst (nf.pfx ++ mid ++ nf.suffix) nf.pfx [] = mid ++ nf.suffix := by
    cases hp : nf.pfx with
    | nil => rw [replaceFirst_nil_pat]; simp
    | cons p0 pt =>
      rw [List.append_assoc]
      rw [replaceFirst_pattern_front p0 pt (mid ++ nf.suffix) []]
      simp
  rw [hstep2]
  exact strip_step_suffix nf mid h4

theorem strip_affixes_neg (nf : NumberFormat) (ms mid : List Char)
    (m0 : Char) (ms' : List Char) (hms : ms = m0 :: ms')
    (hneg : nf.negativePrefix = ms ++ nf.pfx)
    (h3 : ∀ c ∈ nf.pfx, c ∉ mid ∧ c ∉ nf.suffix)
    (h4 : ∀ c ∈ nf.suffix, c ∉ mid) :
    stripPrefixOrSuffix nf (nf.negativePrefix ++ mid ++ nf.suffix) = mid := by
  rw [stripPrefixOrSuffix]
  have hstep1 : replaceFirst (nf.negativePrefix ++ mid ++ nf.suffix) nf.negativePrefix [] =
      mid ++ nf.suffix := by
    rw [List.append_assoc, hneg, hms]
    show replaceFirst ((m0 :: (ms' ++ nf.pfx)) ++ (mid ++ nf.suffix)) (m0 :: (ms' ++ nf.pfx)) [] = _
    rw [replaceFirst_pattern_front]
    simp
  rw [hstep1]
  have hstep2 : replaceFirst (mid ++ nf.suffix) nf.pfx [] = mid ++ nf.suffix := by
    cases hp : nf.pfx with
    | nil => rw [replaceFirst_nil_pat]; simp
    | cons p0 pt =>
      apply replaceFirst_no_occ_of_head
      intro c hc hce
      have hp0 := h3 p0 (by rw [hp]; exact List.mem_cons_self p0 pt)
      rcases List.mem_append.mp (hce ▸ hc) with h | h
      · exact hp0.1 h
      · exact hp0.2 h
  rw [hstep2]
  exact strip_step_suffix nf mid h4

theorem stripMinus_noop (nf : NumberFormat) (ms mid : List Char)
    (hmsym : nf.minusSymbol = some ms) (m0 : Char) (ms' : List Char) (hms : ms = m0 :: ms')
    (hdash : ∀ c ∈ mid, c ≠ '-') (hm0 : m0 ∉ mid) :
    stripMinusSymbol nf mid = mid := by
  rw [stripMinusSymbol, hmsym]
  show replaceFirst (replaceFirst mid ['-'] ms) ms [] = mid
  rw [replaceFirst_no_occ_of_head [] mid ms hdash, hms]
  exact replaceFirst_no_occ_of_head ms' mid [] (fun c hc hce => hm0 (hce ▸ hc))

theorem isNegative_of_negPre (nf : NumberFormat) (rest : List Char) :
    isNegative nf (nf.negativePrefix ++ rest) = true := by
  rw [isNegative, isPrefixOf_self_append]
  rfl

theorem isNegative_false_lemma (nf : NumberFormat) (ms : List Char)
    (hmsym : nf.minusSymbol = some ms) (s : List Char)
    (h1 : occursIn s nf.negativePrefix = false)
    (hdash : ∀ c ∈ s, c ≠ '-')
    (h2 : occursIn s ms = false) : isNegative nf s = false := by
  rw [isNegative, hmsym]
  show (nf.negativePrefix.isPrefixOf s || ms.isPrefixOf (replaceFirst s ['-'] ms)) = false
  rw [isPrefixOf_false_of_no_occ h1]
  rw [replaceFirst_no_occ_of_head [] s ms hdash]
  rw [isPrefixOf_false_of_no_occ h2]
  rfl

/-! ### matchNumber: completeness and soundness -/

theorem takeWhile_all_append (p : Char → Bool) (a b : List Char)
    (ha : ∀ c ∈ a, p c = true)
    (hb : b = [] ∨ ∃ c0 cs, b = c0 :: cs ∧ p c0 = false) :
    (a ++ b).takeWhile p = a := by
  induction a with
  | nil =>
    rcases hb with h | ⟨c0, cs, rfl, hc0⟩
    · simp [h]
    · simp [List.takeWhile_cons, hc0]
  | cons x t ih =>
    have hx : p x = true := ha x (List.mem_cons_self x t)
    show List.takeWhile p (x :: (t ++ b)) = x :: t
    rw [List.takeWhile_cons, if_pos hx, ih (fun c hc => ha c (List.mem_cons_of_mem x hc))]

theorem intCandidates_cons (s : List Char) (m : Nat) (hrun : intRunLen s = m + 1)
    (hhead : s.head? ≠ some '0') :
    intCandidates s = (m + 1) :: ((List.range m).reverse.map (· + 1)) := by
  rw [intCandidates, if_neg hhead, hrun, List.range_succ]
  simp

theorem matchNumber_complete_int (intC : List Char) (dec : Option (List Char))
    (hne : intC ≠ []) (hdig : ∀ c ∈ intC, isAsciiDigit c = true)
    (hlead : ∀ cs, intC = '0' :: cs → cs = []) :
    matchNumber intC dec = some (intC, none) := by
  obtain ⟨c0, cs, rfl⟩ := List.exists_cons_of_ne_nil hne
  by_cases h0 : c0 = '0'
  · subst h0
    have hcs : cs = [] := hlead cs rfl
    subst hcs
    cases dec <;> rfl
  · have hrun2 : intRunLen (c0 :: cs) = cs.length + 1 := by
      have hta := takeWhile_all_append isAsciiDigit (c0 :: cs) [] hdig (Or.inl rfl)
      rw [List.append_nil] at hta
      show (List.takeWhile isAsciiDigit (c0 :: cs)).length = cs.length + 1
      rw [hta]
      simp
    have hhead : (c0 :: cs).head? ≠ some '0' := by
      simp only [List.head?_cons, ne_eq, Option.some.injEq]
      exact h0
    rw [matchNumber, intCandidates_cons (c0 :: cs) cs.length hrun2 hhead]
    rw [List.findSome?_cons]
    have htake : (c0 :: cs).take (cs.length + 1) = c0 :: cs :=
      List.take_of_length_le (by simp)
    have hdrop : (c0 :: cs).drop (cs.length + 1) = [] :=
      List.drop_of_length_le (by simp)
    simp [htake, hdrop]

theorem matchNumber_complete_frac (intC fracC : List Char) (dc : Char)
    (hne : intC ≠ []) (hdig : ∀ c ∈ intC, isAsciiDigit c = true)
    (hlead : ∀ cs, intC = '0' :: cs → cs = [])
    (hdc : isAsciiDigit dc = false)
    (hfr : ∀ c ∈ fracC, isAsciiDigit c = true) :
    matchNumber (intC ++ dc :: fracC) (some [dc]) = some (intC, some fracC) := by
  obtain ⟨c0, cs, rfl⟩ := List.exists_cons_of_ne_nil hne
  have hpre : ([dc] : List Char).isPrefixOf (dc :: fracC) = true := by
    simp [List.isPrefixOf]
  have hall : ((dc :: fracC).drop ([dc] : List Char).length).all isAsciiDigit = true := by
    simp only [List.length_cons, List.length_nil, List.drop_succ_cons, List.drop_zero]
    exact List.all_eq_true.mpr hfr
  by_cases h0 : c0 = '0'
  · subst h0
    have hcs : cs = [] := hlead cs rfl
    subst hcs
    show matchNumber ('0' :: dc :: fracC) (some [dc]) = _
    have hhead : ('0' :: dc :: fracC).head? = some '0' := rfl
    rw [matchNumber, intCandidates, if_pos hhead, List.findSome?_cons]
    have hrest : ('0' :: dc :: fracC).drop 1 = dc :: fracC := rfl
    have htake : ('0' :: dc :: fracC).take 1 = ['0'] := rfl
    simp only [htake, hrest]
    rw [if_neg (by simp)]
    simp [hpre, hall]
    rw [if_pos hfr]
  · have hrun2 : intRunLen ((c0 :: cs) ++ dc :: fracC) = cs.length + 1 := by
      show (List.takeWhile isAsciiDigit ((c0 :: cs) ++ dc :: fracC)).length = cs.length + 1
      rw [takeWhile_all_append isAsciiDigit (c0 :: cs) (dc :: fracC) hdig
        (Or.inr ⟨dc, fracC, rfl, hdc⟩)]
      simp
    have hhead : ((c0 :: cs) ++ dc :: fracC).head? ≠ some '0' := by
      simp only [List.cons_append, List.head?_cons, ne_eq, Option.some.injEq]
      exact h0
    rw [matchNumber, intCandidates_cons _ cs.length hrun2 hhead, List.findSome?_cons]
    have htake : ((c0 :: cs) ++ dc :: fracC).take (cs.length + 1) = c0 :: cs :=
      List.take_left' (by simp)
    have hdrop : ((c0 :: cs) ++ dc :: fracC).drop (cs.length + 1) = dc :: fracC :=
      List.drop_left' (by simp)
    simp only [htake, hdrop]
    rw [if_neg (by simp)]
    simp [hpre, hall]
    rw [if_pos hfr]

theorem take_mem_takeWhile (s : List Char) (p : Char → Bool) (i : Nat)
    (hi : i ≤ (s.takeWhile p).length) (c : Char) (hc : c ∈ s.take i) : p c = true := by
  have hpre : s.takeWhile p <+: s := List.takeWhile_prefix p
  obtain ⟨rest, hrest⟩ := hpre
  have htk : s.take i = (s.takeWhile p).take i := by
    conv_lhs => rw [← hrest]
    rw [List.take_append_eq_append_take]
    have hz : i - (s.takeWhile p).length = 0 := by omega
    rw [hz]
    simp
  rw [htk] at hc
  exact List.mem_takeWhile_imp (List.take_subset i _ hc)

theorem head?_take_pos (s : List Char) (i : Nat) (hi : 1 ≤ i) :
    (s.take i).head? = s.head? := by
  cases s with
  | nil => simp
  | cons c t =>
    obtain ⟨j, rfl⟩ : ∃ j, i = j + 1 := ⟨i - 1, by omega⟩
    rfl

theorem mem_intCandidates {s : List Char} {i : Nat} (h : i ∈ intCandidates s) :
    1 ≤ i ∧ ((s.head? = some '0' ∧ i = 1) ∨ i ≤ intRunLen s) := by
  rw [intCandidates] at h
  by_cases h0 : s.head? = some '0'
  · rw [if_pos h0] at h
    simp at h
    exact ⟨by omega, Or.inl ⟨h0, h⟩⟩
  · rw [if_neg h0] at h
    simp only [List.mem_map, List.mem_reverse, List.mem_range] at h
    obtain ⟨j, hj, rfl⟩ := h
    exact ⟨by omega, Or.inr (by omega)⟩

theorem matchNumber_sound (s : List Char) (dec : Option (List Char)) (ip : List Char)
    (fp : Option (List Char)) (h : matchNumber s dec = some (ip, fp)) :
    (∀ c ∈ ip, isAsciiDigit c = true) ∧
    (∃ c0, s.head? = some c0 ∧ isAsciiDigit c0 = true) ∧
    (∀ f, fp = some f → ∀ c ∈ f, isAsciiDigit c = true) := by
  rw [matchNumber] at h
  obtain ⟨i, hmem, hf⟩ := List.exists_of_findSome?_eq_some h
  simp only [] at hf
  have hip : ip = s.take i ∧ (∀ f, fp = some f → ∀ c ∈ f, isAsciiDigit c = true) := by
    by_cases hd : s.drop i = []
    · rw [if_pos hd] at hf
      have hpair := Option.some.inj hf
      have he1 : s.take i = ip := congrArg Prod.fst hpair
      have he2 : (none : Option (List Char)) = fp := congrArg Prod.snd hpair
      exact ⟨he1.symm, fun f hfp => by rw [← he2] at hfp; cases hfp⟩
    · rw [if_neg hd] at hf
      cases dec with
      | none => cases hf
      | some ds =>
        dsimp only at hf
        by_cases hc : ds.isPrefixOf (s.drop i) = true ∧ ((s.drop i).drop ds.length).all isAsciiDigit = true
        · rw [if_pos hc] at hf
          have hpair := Option.some.inj hf
          have he1 : s.take i = ip := congrArg Prod.fst hpair
          have he2 : some ((s.drop i).drop ds.length) = fp := congrArg Prod.snd hpair
          refine ⟨he1.symm, fun f hfp => ?_⟩
          rw [← he2] at hfp
          have hfe : (s.drop i).drop ds.length = f := Option.some.inj hfp
          intro c hcf
          rw [← hfe] at hcf
          exact List.all_eq_true.mp hc.2 c hcf
        · rw [if_neg hc] at hf
          cases hf
  obtain ⟨hip1, hip2⟩ := hip
  obtain ⟨hi1, hcases⟩ := mem_intCandidates hmem
  have hdigits : ∀ c ∈ ip, isAsciiDigit c = true := by
    rcases hcases with ⟨hz, hione⟩ | hrun
    · subst hione
      intro c hc
      rw [hip1] at hc
      cases s with
      | nil => simp at hz
      | cons c1 t =>
        have : c1 = '0' := by simpa using hz
        subst this
        simp at hc
        subst hc
        decide
    · intro c hc
      rw [hip1] at hc
      exact take_mem_takeWhile s isAsciiDigit i hrun c hc
  refine ⟨hdigits, ?_, hip2⟩
  have hne : ip ≠ [] := by
    rcases hcases with ⟨hz, hione⟩ | hrun
    · subst hione
      rw [hip1]
      cases s with
      | nil => simp at hz
      | cons c1 t => simp
    · rw [hip1]
      intro hemp
      have : (s.take i).length = 0 := by rw [hemp]; rfl
      rw [List.length_take] at this
      have hslen : 1 ≤ s.length := by
        have hrle : intRunLen s ≤ s.length := by
          rw [intRunLen]
          exact (List.takeWhile_prefix isAsciiDigit).sublist.length_le
        omega
      omega
  obtain ⟨c0, cs0, hcons⟩ := List.exists_cons_of_ne_nil hne
  refine ⟨c0, ?_, hdigits c0 (by rw [hcons]; exact List.mem_cons_self _ _)⟩
  have : ip.head? = some c0 := by rw [hcons]; rfl
  rw [hip1, head?_take_pos s i hi1] at this
  exact this

/-! ### Helpers for the round trip -/

theorem groupLE_ne_nil (gr l : List Char) (h : l ≠ []) : groupLE gr l ≠ [] := by
  induction l using groupLE.induct gr with
  | case1 a b c2 rest hrest =>
    rw [groupLE, if_pos hrest]
    simp
  | case2 a b c2 rest hrest ih =>
    rw [groupLE, if_neg hrest]
    simp
  | case3 l hl =>
    rw [groupLE]
    · exact h
    · exact hl

theorem leGlyphs_ne_nil (nf : NumberFormat) (n : Nat) : leGlyphs nf n ≠ [] := by
  rw [leGlyphs]
  by_cases hn : n = 0
  · simp [hn]
  · rw [if_neg hn]
    simp only [ne_eq, List.map_eq_nil_iff]
    exact leDigits_ne_nil n hn

theorem groupedBE_ne_nil (nf : NumberFormat) (n : Nat) : groupedBE nf n ≠ [] := by
  rw [groupedBE]
  cases hg : nf.groupingSymbol with
  | none =>
    rw [digitsBE]
    simp only [ne_eq, List.reverse_eq_nil_iff]
    exact leGlyphs_ne_nil nf n
  | some gl =>
    simp only [ne_eq, List.reverse_eq_nil_iff]
    exact groupLE_ne_nil gl.reverse _ (leGlyphs_ne_nil nf n)

theorem onlyDigits_eq_self {nf : NumberFormat} (hdig : nf.digits = asciiDigits)
    (s : List Char) (h : ∀ c ∈ s, isAsciiDigit c = true) : onlyDigits nf s = s := by
  rw [onlyDigits, normalizeDigits_ascii hdig]
  exact filter_all_true s h

theorem digitsBE_no_leading_zero {nf : NumberFormat} (hdig : nf.digits = asciiDigits)
    (n : Nat) : ∀ cs, digitsBE nf n = '0' :: cs → cs = [] := by
  intro cs hcs
  by_cases hn : n = 0
  · subst hn
    rw [digitsBE_head_zero hdig] at hcs
    exact (List.cons_eq_cons.mp hcs).2.symm
  · obtain ⟨c, cs2, hc, hcne, _⟩ := digitsBE_head_ne_zero hdig n hn
    rw [hc] at hcs
    exact absurd (List.cons_eq_cons.mp hcs).1 hcne

theorem composeNumber_eval (negative : Bool) (iC fC : List Char)
    (hi : charsToNat iC < JS_OVERFLOW) (hf : ∀ c ∈ fC, isAsciiDigit c = true) :
    composeNumber negative iC fC =
      .fin (if negative then
        -mkRat (charsToNat iC * 10 ^ fC.length + charsToNat fC) (10 ^ fC.length)
      else mkRat (charsToNat iC * 10 ^ fC.length + charsToNat fC) (10 ^ fC.length)) := by
  rw [composeNumber]
  have hFlt : charsToNat fC < 10 ^ fC.length := charsToNat_lt fC hf
  have hnoov : ¬ (JS_OVERFLOW * 10 ^ fC.length ≤ charsToNat iC * 10 ^ fC.length + charsToNat fC) := by
    intro hov
    have h1 : charsToNat iC * 10 ^ fC.length + charsToNat fC < (charsToNat iC + 1) * 10 ^ fC.length := by
      have := hFlt
      nlinarith [Nat.pos_pow_of_pos fC.length (by omega : 0 < 10)]
    have h2 : (charsToNat iC + 1) * 10 ^ fC.length ≤ JS_OVERFLOW * 10 ^ fC.length :=
      Nat.mul_le_mul_right _ (by omega)
    omega
  rw [if_neg hnoov]
  push_cast
  rfl

theorem mkRat_int_frac (i f k : Nat) :
    mkRat (i * 10 ^ k + f) (10 ^ k) = (i : ℚ) + (f : ℚ) / ((10 : ℚ) ^ k) := by
  rw [Rat.mkRat_eq_div]
  have h10 : ((10 : ℚ) ^ k) ≠ 0 := by positivity
  push_cast
  field_simp

theorem padFrac_length (minF : Nat) (f : List Nat) :
    (padFrac minF f).length = f.length + (minF - f.length) := by
  rw [padFrac]
  simp

theorem padFrac_mem (minF : Nat) (f : List Nat) (h : ∀ x ∈ f, x < 10) :
    ∀ x ∈ padFrac minF f, x < 10 := by
  intro x hx
  rw [padFrac] at hx
  rcases List.mem_append.mp hx with h1 | h1
  · exact h x h1
  · have := List.eq_of_mem_replicate h1
    omega

theorem natBE_padFrac (minF : Nat) (f : List Nat) :
    natBE (padFrac minF f) = natBE f * 10 ^ (minF - f.length) := by
  rw [padFrac]
  generalize minF - f.length = z
  induction z generalizing f with
  | zero => simp [natBE]
  | succ n ih =>
    have hsplit : f ++ List.replicate (n + 1) 0 = (f ++ [0]) ++ List.replicate n 0 := by
      simp [List.replicate_succ]
    rw [hsplit, ih]
    have hstep : natBE (f ++ [0]) = 10 * natBE f := by
      show (f ++ [0]).foldl (fun a x => 10 * a + x) 0 = _
      rw [List.foldl_append]
      show 10 * (f.foldl (fun a x => 10 * a + x) 0) + 0 = _
      rfl
    rw [hstep]
    ring

theorem isAsciiDigit_ne_dash {c : Char} (h : isAsciiDigit c = true) : c ≠ '-' := by
  intro hce
  subst hce
  exact absurd h (by decide)

theorem isEmpty_false_of_ne_nil {α : Type} {l : List α} (h : l ≠ []) : l.isEmpty = false := by
  cases l with
  | nil => exact absurd rfl h
  | cons c t => rfl

theorem parse_strip_phase (d g : Option Char) (ms pfxL sfxL : List Char) (minF maxF : Nat)
    (m0 : Char) (ms' : List Char) (hms : ms = m0 :: ms')
    (hmsC : ∀ c ∈ ms, isAsciiDigit c = false ∧ c ∉ pfxL ∧ c ∉ sfxL ∧ d ≠ some c ∧ g ≠ some c)
    (hpfxC : ∀ c ∈ pfxL, isAsciiDigit c = false ∧ c ∉ sfxL ∧ c ≠ '-' ∧ d ≠ some c ∧ g ≠ some c)
    (hsfxC : ∀ c ∈ sfxL, isAsciiDigit c = false ∧ c ≠ '-' ∧ d ≠ some c ∧ g ≠ some c)
    (hdC : ∀ c, d = some c → isAsciiDigit c = false ∧ c ≠ '-' ∧ g ≠ some c)
    (hgC : ∀ c, g = some c → isAsciiDigit c = false ∧ c ≠ '-')
    (B : List Char)
    (hBmem : ∀ c ∈ B, isAsciiDigit c = true ∨ d = some c ∨ g = some c)
    (hBne : B ≠ []) (neg : Bool) :
    (insertPrefixOrSuffix (mkWF d g ms pfxL sfxL minF maxF) B neg).isEmpty = false ∧
    isNegative (mkWF d g ms pfxL sfxL minF maxF)
      (insertPrefixOrSuffix (mkWF d g ms pfxL sfxL minF maxF) B neg) = neg ∧
    stripMinusSymbol (mkWF d g ms pfxL sfxL minF maxF)
      (stripPrefixOrSuffix (mkWF d g ms pfxL sfxL minF maxF)
        (normalizeDigits (mkWF d g ms pfxL sfxL minF maxF)
          (insertPrefixOrSuffix (mkWF d g ms pfxL sfxL minF maxF) B neg))) = B := by
  have hnotB : ∀ c : Char, isAsciiDigit c = false → d ≠ some c → g ≠ some c → c ∉ B := by
    intro c h1 h2 h3 hcB
    rcases hBmem c hcB with h | h | h
    · rw [h1] at h; cases h
    · exact h2 h
    · exact h3 h
  have hdashB : ∀ c ∈ B, c ≠ '-' := by
    intro c hc hce
    subst hce
    rcases hBmem '-' hc with h | h | h
    · exact absurd h (by decide)
    · exact (hdC '-' h).2.1 rfl
    · exact (hgC '-' h).2 rfl
  have hm0 := hmsC m0 (by rw [hms]; exact List.mem_cons_self m0 ms')
  have hm0B : m0 ∉ B := hnotB m0 hm0.1 (fun he => hm0.2.2.2.1 he) (fun he => hm0.2.2.2.2 he)
  have h2pack : ∀ c ∈ ms, c ∉ (mkWF d g ms pfxL sfxL minF maxF).pfx ∧ c ∉ B ∧
      c ∉ (mkWF d g ms pfxL sfxL minF maxF).suffix := by
    intro c hc
    have h := hmsC c hc
    exact ⟨h.2.1, hnotB c h.1 (fun he => h.2.2.2.1 he) (fun he => h.2.2.2.2 he), h.2.2.1⟩
  have h3pack : ∀ c ∈ (mkWF d g ms pfxL sfxL minF maxF).pfx, c ∉ B ∧
      c ∉ (mkWF d g ms pfxL sfxL minF maxF).suffix := by
    intro c hc
    have h := hpfxC c hc
    exact ⟨hnotB c h.1 (fun he => h.2.2.2.1 he) (fun he => h.2.2.2.2 he), h.2.1⟩
  have h4pack : ∀ c ∈ (mkWF d g ms pfxL sfxL minF maxF).suffix, c ∉ B := by
    intro c hc
    have h := hsfxC c hc
    exact hnotB c h.1 (fun he => h.2.2.1 he) (fun he => h.2.2.2 he)
  have hnegeq : (mkWF d g ms pfxL sfxL minF maxF).negativePrefix = ms ++ pfxL := rfl
  cases neg with
  | true =>
    have hFshape : insertPrefixOrSuffix (mkWF d g ms pfxL sfxL minF maxF) B true =
        (mkWF d g ms pfxL sfxL minF maxF).negativePrefix ++ B ++
          (mkWF d g ms pfxL sfxL minF maxF).suffix := rfl
    refine ⟨?_, ?_, ?_⟩
    · rw [hFshape]
      show ((ms ++ pfxL) ++ B ++ sfxL).isEmpty = false
      apply isEmpty_false_of_ne_nil
      intro hemp
      exact hBne (List.append_eq_nil.mp (List.append_eq_nil.mp hemp).1).2
    · rw [hFshape, List.append_assoc]
      exact isNegative_of_negPre _ _
    · rw [hFshape, normalizeDigits_ascii rfl]
      rw [strip_affixes_neg _ ms B m0 ms' hms rfl h3pack h4pack]
      exact stripMinus_noop _ ms B rfl m0 ms' hms hdashB hm0B
  | false =>
    have hFshape : insertPrefixOrSuffix (mkWF d g ms pfxL sfxL minF maxF) B false =
        (mkWF d g ms pfxL sfxL minF maxF).pfx ++ B ++
          (mkWF d g ms pfxL sfxL minF maxF).suffix := rfl
    have hdashF : ∀ c ∈ pfxL ++ B ++ sfxL, c ≠ '-' := by
      intro c hc
      rcases List.mem_append.mp hc with h | h
      · rcases List.mem_append.mp h with h1 | h1
        · exact (hpfxC c h1).2.2.1
        · exact hdashB c h1
      · exact (hsfxC c h).2.1
    have hm0F : m0 ∉ pfxL ++ B ++ sfxL := by
      intro hc
      rcases List.mem_append.mp hc with h | h
      · rcases List.mem_append.mp h with h1 | h1
        · exact hm0.2.1 h1
        · exact hm0B h1
      · exact hm0.2.2.1 h
    refine ⟨?_, ?_, ?_⟩
    · rw [hFshape]
      show (pfxL ++ B ++ sfxL).isEmpty = false
      apply isEmpty_false_of_ne_nil
      intro hemp
      exact hBne (List.append_eq_nil.mp (List.append_eq_nil.mp hemp).1).2
    · rw [hFshape]
      apply isNegative_false_lemma _ ms rfl
      · rw [hnegeq, hms]
        show occursIn (pfxL ++ B ++ sfxL) (m0 :: (ms' ++ pfxL)) = false
        exact no_occ_of_notin _ _ hm0F
      · exact hdashF
      · rw [hms]
        exact no_occ_of_notin _ _ hm0F
    · rw [hFshape, normalizeDigits_ascii rfl]
      rw [strip_affixes_pos _ ms B m0 ms' hms rfl
        (h2pack m0 (by rw [hms]; exact List.mem_cons_self m0 ms')) h4pack]
      exact stripMinus_noop _ ms B rfl m0 ms' hms hdashB hm0B

theorem mem_groupedBE_mkWF (d g : Option Char) (ms pfxL sfxL : List Char) (minF maxF : Nat)
    (n : Nat) :
    ∀ c ∈ groupedBE (mkWF d g ms pfxL sfxL minF maxF) n, isAsciiDigit c = true ∨ g = some c := by
  cases g with
  | none =>
    intro c hc
    rw [groupedBE_none rfl] at hc
    exact Or.inl (digitsBE_all_digits rfl n c hc)
  | some gc =>
    intro c hc
    rcases mem_groupedBE_some rfl n c hc with h | h
    · exact Or.inl (digitsBE_all_digits rfl n c h)
    · exact Or.inr (by rw [h])

theorem stripGroup_body_mkWF (d g : Option Char) (ms pfxL sfxL : List Char) (minF maxF : Nat)
    (hgC : ∀ c, g = some c → isAsciiDigit c = false ∧ c ≠ '-')
    (hdg : ∀ c, d = some c → g ≠ some c)
    (n : Nat) (tail : List Char)
    (htail : ∀ c ∈ tail, isAsciiDigit c = true ∨ d = some c) :
    stripGroupingSeparator (mkWF d g ms pfxL sfxL minF maxF)
        (groupedBE (mkWF d g ms pfxL sfxL minF maxF) n ++ tail) =
      digitsBE (mkWF d g ms pfxL sfxL minF maxF) n ++ tail := by
  cases g with
  | none =>
    show groupedBE (mkWF d none ms pfxL sfxL minF maxF) n ++ tail = _
    rw [groupedBE_none rfl]
  | some gc =>
    show replaceAll (groupedBE (mkWF d (some gc) ms pfxL sfxL minF maxF) n ++ tail) [gc] [] = _
    have hgrp := @strip_groupedBE (mkWF d (some gc) ms pfxL sfxL minF maxF) gc rfl rfl
      (hgC gc rfl).1 n
    rw [replaceAll_singleton] at hgrp ⊢
    rw [List.filter_append, hgrp]
    have htailkeep : List.filter (fun c => c != gc) tail = tail := by
      apply filter_all_true
      intro c hc
      apply bne_iff_ne.mpr
      intro hce
      subst hce
      rcases htail c hc with h | h
      · rw [(hgC c rfl).1] at h; cases h
      · exact (hdg c h) rfl
    rw [htailkeep]

theorem isValid_rendered (d g : Option Char) (ms pfxL sfxL : List Char) (minF maxF : Nat)
    (m0 : Char) (ms' : List Char) (hms : ms = m0 :: ms')
    (hmsC : ∀ c ∈ ms, isAsciiDigit c = false ∧ c ∉ pfxL ∧ c ∉ sfxL ∧ d ≠ some c ∧ g ≠ some c)
    (hpfxC : ∀ c ∈ pfxL, isAsciiDigit c = false ∧ c ∉ sfxL ∧ c ≠ '-' ∧ d ≠ some c ∧ g ≠ some c)
    (hsfxC : ∀ c ∈ sfxL, isAsciiDigit c = false ∧ c ≠ '-' ∧ d ≠ some c ∧ g ≠ some c)
    (n : Nat) (hn : n < JS_OVERFLOW) :
    isValidIntegerFormat (mkWF d g ms pfxL sfxL minF maxF)
      (groupedBE (mkWF d g ms pfxL sfxL minF maxF) n) (jsOfNat n) = true := by
  have hjs : jsOfNat n = some n := by rw [jsOfNat, if_pos hn]
  have hBmem := mem_groupedBE_mkWF d g ms pfxL sfxL minF maxF n
  have hnotB : ∀ c : Char, isAsciiDigit c = false → g ≠ some c →
      c ∉ groupedBE (mkWF d g ms pfxL sfxL minF maxF) n := by
    intro c h1 h3 hcB
    rcases hBmem c hcB with h | h
    · rw [h1] at h; cases h
    · exact h3 h
  have h2pack : ∀ c ∈ ms, c ∉ (mkWF d g ms pfxL sfxL minF maxF).pfx ∧
      c ∉ groupedBE (mkWF d g ms pfxL sfxL minF maxF) n ∧
      c ∉ (mkWF d g ms pfxL sfxL minF maxF).suffix := by
    intro c hc
    have h := hmsC c hc
    exact ⟨h.2.1, hnotB c h.1 (fun he => h.2.2.2.2 he), h.2.2.1⟩
  have h3pack : ∀ c ∈ (mkWF d g ms pfxL sfxL minF maxF).pfx,
      c ∉ groupedBE (mkWF d g ms pfxL sfxL minF maxF) n ∧
      c ∉ (mkWF d g ms pfxL sfxL minF maxF).suffix := by
    intro c hc
    have h := hpfxC c hc
    exact ⟨hnotB c h.1 (fun he => h.2.2.2.2 he), h.2.1⟩
  have h4pack : ∀ c ∈ (mkWF d g ms pfxL sfxL minF maxF).suffix,
      c ∉ groupedBE (mkWF d g ms pfxL sfxL minF maxF) n := by
    intro c hc
    have h := hsfxC c hc
    exact hnotB c h.1 (fun he => h.2.2.2 he)
  have hhost : hostFormatInteger (mkWF d g ms pfxL sfxL minF maxF) true (some n) =
      (mkWF d g ms pfxL sfxL minF maxF).pfx ++
        groupedBE (mkWF d g ms pfxL sfxL minF maxF) n ++
        (mkWF d g ms pfxL sfxL minF maxF).suffix := rfl
  have hstrip : stripPrefixOrSuffix (mkWF d g ms pfxL sfxL minF maxF)
      (normalizeDigits (mkWF d g ms pfxL sfxL minF maxF)
        (hostFormatInteger (mkWF d g ms pfxL sfxL minF maxF) true (some n))) =
      groupedBE (mkWF d g ms pfxL sfxL minF maxF) n := by
    rw [hhost, normalizeDigits_ascii rfl]
    exact strip_affixes_pos _ ms _ m0 ms' hms rfl
      (h2pack m0 (by rw [hms]; exact List.mem_cons_self m0 ms')) h4pack
  rw [isValidIntegerFormat, hjs, hstrip]
  simp

theorem round_trip_none (g : Option Char) (ms pfxL sfxL : List Char) (minF maxF : Nat)
    (m0 : Char) (ms' : List Char) (hms : ms = m0 :: ms')
    (hmsC : ∀ c ∈ ms, isAsciiDigit c = false ∧ c ∉ pfxL ∧ c ∉ sfxL ∧
      (none : Option Char) ≠ some c ∧ g ≠ some c)
    (hpfxC : ∀ c ∈ pfxL, isAsciiDigit c = false ∧ c ∉ sfxL ∧ c ≠ '-' ∧
      (none : Option Char) ≠ some c ∧ g ≠ some c)
    (hsfxC : ∀ c ∈ sfxL, isAsciiDigit c = false ∧ c ≠ '-' ∧
      (none : Option Char) ≠ some c ∧ g ≠ some c)
    (hgC : ∀ c, g = some c → isAsciiDigit c = false ∧ c ≠ '-')
    (hb0 : minF = 0 ∧ maxF = 0)
    (v : DecValue) (hvf : v.frac.length ≤ maxF) (hvi : v.int < JS_OVERFLOW) :
    parse (mkWF none g ms pfxL sfxL minF maxF)
        (some (format (mkWF none g ms pfxL sfxL minF maxF) (some v))) =
      some (JsNumber.fin (dvalue v)) := by
  have hdC : ∀ c, (none : Option Char) = some c → isAsciiDigit c = false ∧ c ≠ '-' ∧ g ≠ some c :=
    fun c h => nomatch h
  have hfrnil : v.frac = [] := by
    rw [hb0.2] at hvf
    exact List.length_eq_zero.mp (Nat.le_zero.mp hvf)
  have hpad : padFrac (mkWF none g ms pfxL sfxL minF maxF).minimumFractionDigits v.frac = [] := by
    show padFrac minF v.frac = []
    rw [hb0.1, hfrnil]
    rfl
  have hF : format (mkWF none g ms pfxL sfxL minF maxF) (some v) =
      insertPrefixOrSuffix (mkWF none g ms pfxL sfxL minF maxF)
        (groupedBE (mkWF none g ms pfxL sfxL minF maxF) v.int) v.neg := by
    show insertPrefixOrSuffix (mkWF none g ms pfxL sfxL minF maxF)
        (groupedBE (mkWF none g ms pfxL sfxL minF maxF) v.int ++
          (if (padFrac (mkWF none g ms pfxL sfxL minF maxF).minimumFractionDigits v.frac).isEmpty
            then []
            else jsStrT (mkWF none g ms pfxL sfxL minF maxF).decimalSymbol ++
              (padFrac (mkWF none g ms pfxL sfxL minF maxF).minimumFractionDigits v.frac).map
                (glyph (mkWF none g ms pfxL sfxL minF maxF)))) v.neg = _
    rw [hpad]
    simp
  have hBmem : ∀ c ∈ groupedBE (mkWF none g ms pfxL sfxL minF maxF) v.int,
      isAsciiDigit c = true ∨ (none : Option Char) = some c ∨ g = some c := by
    intro c hc
    rcases mem_groupedBE_mkWF none g ms pfxL sfxL minF maxF v.int c hc with h | h
    · exact Or.inl h
    · exact Or.inr (Or.inr h)
  obtain ⟨hFe, hFneg, hFstrip⟩ := parse_strip_phase none g ms pfxL sfxL minF maxF m0 ms' hms
    hmsC hpfxC hsfxC hdC hgC (groupedBE (mkWF none g ms pfxL sfxL minF maxF) v.int) hBmem
    (groupedBE_ne_nil _ v.int) v.neg
  have hgs : stripGroupingSeparator (mkWF none g ms pfxL sfxL minF maxF)
      (groupedBE (mkWF none g ms pfxL sfxL minF maxF) v.int) =
      digitsBE (mkWF none g ms pfxL sfxL minF maxF) v.int := by
    have h := stripGroup_body_mkWF none g ms pfxL sfxL minF maxF hgC
      (fun c hxx => nomatch hxx) v.int [] (fun c hc => absurd hc (List.not_mem_nil c))
    rwa [List.append_nil, List.append_nil] at h
  have hmatch : matchNumber (digitsBE (mkWF none g ms pfxL sfxL minF maxF) v.int) none =
      some (digitsBE (mkWF none g ms pfxL sfxL minF maxF) v.int, none) :=
    matchNumber_complete_int _ none (digitsBE_ne_nil rfl _) (digitsBE_all_digits rfl _)
      (digitsBE_no_leading_zero rfl _)
  have hcn : charsToNat (digitsBE (mkWF none g ms pfxL sfxL minF maxF) v.int) = v.int :=
    charsToNat_digitsBE rfl v.int
  have hvalid := isValid_rendered none g ms pfxL sfxL minF maxF m0 ms' hms hmsC hpfxC hsfxC
    v.int hvi
  have hdecT : (if truthyStr (mkWF none g ms pfxL sfxL minF maxF).decimalSymbol
      then (mkWF none g ms pfxL sfxL minF maxF).decimalSymbol else none) = none := rfl
  rw [hF]
  simp only [parse]
  rw [hFe]
  simp only [Bool.false_eq_true, if_false]
  rw [hFneg, hFstrip, hgs, hdecT, hmatch]
  simp only []
  rw [hcn, hvalid]
  simp only [if_true, ite_true]
  have honly : onlyDigits (mkWF none g ms pfxL sfxL minF maxF)
      (digitsBE (mkWF none g ms pfxL sfxL minF maxF) v.int) =
      digitsBE (mkWF none g ms pfxL sfxL minF maxF) v.int :=
    onlyDigits_eq_self rfl _ (digitsBE_all_digits rfl _)
  have honly2 : onlyDigits (mkWF none g ms pfxL sfxL minF maxF) ((none : Option (List Char)).getD []) = [] := rfl
  rw [honly2, honly]
  rw [composeNumber_eval v.neg _ [] (by rw [hcn]; exact hvi) (fun c hc => absurd hc (List.not_mem_nil c))]
  rw [hcn]
  simp only [List.length_nil]
  have hfold0 : ((charsToNat ([] : List Char) : Nat) : Int) = ((0 : Nat) : Int) := rfl
  rw [show charsToNat ([] : List Char) = (0 : Nat) from rfl]
  rw [mkRat_int_frac v.int 0 0]
  have hdv : dvalue v = if v.neg = true then -((v.int : ℚ) + 0) else ((v.int : ℚ) + 0) := by
    rw [dvalue, hfrnil]
    simp [fracValue, natBE]
  rw [hdv]
  have hq : ((0 : Nat) : ℚ) / ((10 : ℚ) ^ (0 : Nat)) = 0 := by norm_num
  rw [hq]


theorem frac_pad_value (f : List Nat) (minF : Nat) :
    ((natBE (padFrac minF f) : ℚ)) / ((10 : ℚ) ^ (padFrac minF f).length) =
      (natBE f : ℚ) / ((10 : ℚ) ^ f.length) := by
  rw [natBE_padFrac, padFrac_length, pow_add]
  push_cast
  have h1 : ((10 : ℚ) ^ f.length) ≠ 0 := by positivity
  have h2 : ((10 : ℚ) ^ (minF - f.length)) ≠ 0 := by positivity
  field_simp
  ring

theorem round_trip_some (dc : Char) (g : Option Char) (ms pfxL sfxL : List Char)
    (minF maxF : Nat)
    (m0 : Char) (ms' : List Char) (hms : ms = m0 :: ms')
    (hmsC : ∀ c ∈ ms, isAsciiDigit c = false ∧ c ∉ pfxL ∧ c ∉ sfxL ∧
      (some dc : Option Char) ≠ some c ∧ g ≠ some c)
    (hpfxC : ∀ c ∈ pfxL, isAsciiDigit c = false ∧ c ∉ sfxL ∧ c ≠ '-' ∧
      (some dc : Option Char) ≠ some c ∧ g ≠ some c)
    (hsfxC : ∀ c ∈ sfxL, isAsciiDigit c = false ∧ c ≠ '-' ∧
      (some dc : Option Char) ≠ some c ∧ g ≠ some c)
    (hdC : ∀ c, (some dc : Option Char) = some c → isAsciiDigit c = false ∧ c ≠ '-' ∧ g ≠ some c)
    (hgC : ∀ c, g = some c → isAsciiDigit c = false ∧ c ≠ '-')
    (v : DecValue) (hvd : ∀ x ∈ v.frac, x < 10) (hvi : v.int < JS_OVERFLOW) :
    parse (mkWF (some dc) g ms pfxL sfxL minF maxF)
        (some (format (mkWF (some dc) g ms pfxL sfxL minF maxF) (some v))) =
      some (JsNumber.fin (dvalue v)) := by
  have hdcP := hdC dc rfl
  have hfrd : ∀ x ∈ padFrac minF v.frac, x < 10 := padFrac_mem minF v.frac hvd
  have hdvple : ∀ c ∈ groupedBE (mkWF (some dc) g ms pfxL sfxL minF maxF) v.int, c ≠ dc := by
    intro c hc hce
    rw [hce] at hc
    rcases mem_groupedBE_mkWF (some dc) g ms pfxL sfxL minF maxF v.int dc hc with h | h
    · rw [hdcP.1] at h; cases h
    · exact hdcP.2.2 h
  have hdecT : (if truthyStr (mkWF (some dc) g ms pfxL sfxL minF maxF).decimalSymbol
      then (mkWF (some dc) g ms pfxL sfxL minF maxF).decimalSymbol else none) = some [dc] := rfl
  have hcn : charsToNat (digitsBE (mkWF (some dc) g ms pfxL sfxL minF maxF) v.int) = v.int :=
    charsToNat_digitsBE rfl v.int
  have hvalid := isValid_rendered (some dc) g ms pfxL sfxL minF maxF m0 ms' hms hmsC hpfxC hsfxC
    v.int hvi
  have honlyI : onlyDigits (mkWF (some dc) g ms pfxL sfxL minF maxF)
      (digitsBE (mkWF (some dc) g ms pfxL sfxL minF maxF) v.int) =
      digitsBE (mkWF (some dc) g ms pfxL sfxL minF maxF) v.int :=
    onlyDigits_eq_self rfl _ (digitsBE_all_digits rfl _)
  cases hfr : padFrac minF v.frac with
  | nil =>
    have hfrnil : v.frac = [] := by
      have := congrArg List.length hfr
      rw [padFrac_length] at this
      simp at this
      exact this.1
    have hpad : padFrac (mkWF (some dc) g ms pfxL sfxL minF maxF).minimumFractionDigits v.frac = [] := hfr
    have hF : format (mkWF (some dc) g ms pfxL sfxL minF maxF) (some v) =
        insertPrefixOrSuffix (mkWF (some dc) g ms pfxL sfxL minF maxF)
          (groupedBE (mkWF (some dc) g ms pfxL sfxL minF maxF) v.int) v.neg := by
      show insertPrefixOrSuffix (mkWF (some dc) g ms pfxL sfxL minF maxF)
          (groupedBE (mkWF (some dc) g ms pfxL sfxL minF maxF) v.int ++
            (if (padFrac (mkWF (some dc) g ms pfxL sfxL minF maxF).minimumFractionDigits v.frac).isEmpty
              then []
              else jsStrT (mkWF (some dc) g ms pfxL sfxL minF maxF).decimalSymbol ++
                (padFrac (mkWF (some dc) g ms pfxL sfxL minF maxF).minimumFractionDigits v.frac).map
                  (glyph (mkWF (some dc) g ms pfxL sfxL minF maxF)))) v.neg = _
      simp only [hpad]
      simp
    have hBmem : ∀ c ∈ groupedBE (mkWF (some dc) g ms pfxL sfxL minF maxF) v.int,
        isAsciiDigit c = true ∨ (some dc : Option Char) = some c ∨ g = some c := by
      intro c hc
      rcases mem_groupedBE_mkWF (some dc) g ms pfxL sfxL minF maxF v.int c hc with h | h
      · exact Or.inl h
      · exact Or.inr (Or.inr h)
    obtain ⟨hFe, hFneg, hFstrip⟩ := parse_strip_phase (some dc) g ms pfxL sfxL minF maxF m0 ms'
      hms hmsC hpfxC hsfxC hdC hgC (groupedBE (mkWF (some dc) g ms pfxL sfxL minF maxF) v.int)
      hBmem (groupedBE_ne_nil _ v.int) v.neg
    have hgs : stripGroupingSeparator (mkWF (some dc) g ms pfxL sfxL minF maxF)
        (groupedBE (mkWF (some dc) g ms pfxL sfxL minF maxF) v.int) =
        digitsBE (mkWF (some dc) g ms pfxL sfxL minF maxF) v.int := by
      have h := stripGroup_body_mkWF (some dc) g ms pfxL sfxL minF maxF hgC
        (fun c hxx => by rw [← Option.some.inj hxx]; exact hdcP.2.2) v.int []
        (fun c hc => absurd hc (List.not_mem_nil c))
      rwa [List.append_nil, List.append_nil] at h
    have hmatch : matchNumber (digitsBE (mkWF (some dc) g ms pfxL sfxL minF maxF) v.int)
        (some [dc]) = some (digitsBE (mkWF (some dc) g ms pfxL sfxL minF maxF) v.int, none) :=
      matchNumber_complete_int _ (some [dc]) (digitsBE_ne_nil rfl _) (digitsBE_all_digits rfl _)
        (digitsBE_no_leading_zero rfl _)
    have hsplit : splitBefore (groupedBE (mkWF (some dc) g ms pfxL sfxL minF maxF) v.int) [dc] =
        groupedBE (mkWF (some dc) g ms pfxL sfxL minF maxF) v.int :=
      splitBefore_no_occ [] _ hdvple
    rw [hF]
    simp only [parse]
    rw [hFe]
    simp only [Bool.false_eq_true, if_false]
    rw [hFneg, hFstrip, hgs, hdecT, hmatch]
    simp only []
    simp only [hsplit, hcn, hvalid]
    simp only [if_true, ite_true]
    have honly2 : onlyDigits (mkWF (some dc) g ms pfxL sfxL minF maxF)
        ((none : Option (List Char)).getD []) = [] := rfl
    rw [honly2, honlyI]
    rw [composeNumber_eval v.neg _ [] (by rw [hcn]; exact hvi)
      (fun c hc => absurd hc (List.not_mem_nil c))]
    rw [hcn]
    simp only [List.length_nil]
    rw [show charsToNat ([] : List Char) = (0 : Nat) from rfl]
    rw [mkRat_int_frac v.int 0 0]
    have hdv : dvalue v = if v.neg = true then -((v.int : ℚ) + 0) else ((v.int : ℚ) + 0) := by
      rw [dvalue, hfrnil]
      simp [fracValue, natBE]
    rw [hdv]
    have hq : ((0 : Nat) : ℚ) / ((10 : ℚ) ^ (0 : Nat)) = 0 := by norm_num
    rw [hq]
  | cons f0 ft =>
    have hfrne : padFrac minF v.frac ≠ [] := by rw [hfr]; simp
    have hglyphmap : (padFrac minF v.frac).map (glyph (mkWF (some dc) g ms pfxL sfxL minF maxF)) =
        (padFrac minF v.frac).map digitChar :=
      List.map_congr_left (fun x hx => glyph_ascii rfl (hfrd x hx))
    have hglyphdig : ∀ c ∈ (padFrac minF v.frac).map digitChar, isAsciiDigit c = true := by
      intro c hc
      obtain ⟨x, hx, rfl⟩ := List.mem_map.mp hc
      exact digitChar_isDigit (hfrd x hx)
    have hF : format (mkWF (some dc) g ms pfxL sfxL minF maxF) (some v) =
        insertPrefixOrSuffix (mkWF (some dc) g ms pfxL sfxL minF maxF)
          (groupedBE (mkWF (some dc) g ms pfxL sfxL minF maxF) v.int ++
            (dc :: (padFrac minF v.frac).map digitChar)) v.neg := by
      show insertPrefixOrSuffix (mkWF (some dc) g ms pfxL sfxL minF maxF)
          (groupedBE (mkWF (some dc) g ms pfxL sfxL minF maxF) v.int ++
            (if (padFrac (mkWF (some dc) g ms pfxL sfxL minF maxF).minimumFractionDigits v.frac).isEmpty
              then []
              else jsStrT (mkWF (some dc) g ms pfxL sfxL minF maxF).decimalSymbol ++
                (padFrac (mkWF (some dc) g ms pfxL sfxL minF maxF).minimumFractionDigits v.frac).map
                  (glyph (mkWF (some dc) g ms pfxL sfxL minF maxF)))) v.neg = _
      simp only [show padFrac (mkWF (some dc) g ms pfxL sfxL minF maxF).minimumFractionDigits v.frac =
        padFrac minF v.frac from rfl]
      have hie : (padFrac minF v.frac).isEmpty = false := isEmpty_false_of_ne_nil hfrne
      simp only [hie, Bool.false_eq_true, if_false]
      rw [hglyphmap]
      rfl
    have htailmem : ∀ c ∈ dc :: (padFrac minF v.frac).map digitChar,
        isAsciiDigit c = true ∨ (some dc : Option Char) = some c := by
      intro c hc
      rcases List.mem_cons.mp hc with h | h
      · exact Or.inr (by rw [h])
      · exact Or.inl (hglyphdig c h)
    have hBmem : ∀ c ∈ groupedBE (mkWF (some dc) g ms pfxL sfxL minF maxF) v.int ++
        (dc :: (padFrac minF v.frac).map digitChar),
        isAsciiDigit c = true ∨ (some dc : Option Char) = some c ∨ g = some c := by
      intro c hc
      rcases List.mem_append.mp hc with h | h
      · rcases mem_groupedBE_mkWF (some dc) g ms pfxL sfxL minF maxF v.int c h with h1 | h1
        · exact Or.inl h1
        · exact Or.inr (Or.inr h1)
      · rcases htailmem c h with h1 | h1
        · exact Or.inl h1
        · exact Or.inr (Or.inl h1)
    have hBne : groupedBE (mkWF (some dc) g ms pfxL sfxL minF maxF) v.int ++
        (dc :: (padFrac minF v.frac).map digitChar) ≠ [] := by
      simp
    obtain ⟨hFe, hFneg, hFstrip⟩ := parse_strip_phase (some dc) g ms pfxL sfxL minF maxF m0 ms'
      hms hmsC hpfxC hsfxC hdC hgC
      (groupedBE (mkWF (some dc) g ms pfxL sfxL minF maxF) v.int ++
        (dc :: (padFrac minF v.frac).map digitChar)) hBmem hBne v.neg
    have hgs : stripGroupingSeparator (mkWF (some dc) g ms pfxL sfxL minF maxF)
        (groupedBE (mkWF (some dc) g ms pfxL sfxL minF maxF) v.int ++
          (dc :: (padFrac minF v.frac).map digitChar)) =
        digitsBE (mkWF (some dc) g ms pfxL sfxL minF maxF) v.int ++
          (dc :: (padFrac minF v.frac).map digitChar) :=
      stripGroup_body_mkWF (some dc) g ms pfxL sfxL minF maxF hgC
        (fun c hxx => by rw [← Option.some.inj hxx]; exact hdcP.2.2) v.int _ htailmem
    have hmatch : matchNumber (digitsBE (mkWF (some dc) g ms pfxL sfxL minF maxF) v.int ++
        dc :: (padFrac minF v.frac).map digitChar) (some [dc]) =
        some (digitsBE (mkWF (some dc) g ms pfxL sfxL minF maxF) v.int,
          some ((padFrac minF v.frac).map digitChar)) :=
      matchNumber_complete_frac _ _ dc (digitsBE_ne_nil rfl _) (digitsBE_all_digits rfl _)
        (digitsBE_no_leading_zero rfl _) hdcP.1 hglyphdig
    have hsplit : splitBefore (groupedBE (mkWF (some dc) g ms pfxL sfxL minF maxF) v.int ++
        dc :: (padFrac minF v.frac).map digitChar) [dc] =
        groupedBE (mkWF (some dc) g ms pfxL sfxL minF maxF) v.int :=
      splitBefore_append_sep _ _ dc hdvple
    have honlyF : onlyDigits (mkWF (some dc) g ms pfxL sfxL minF maxF)
        ((some ((padFrac minF v.frac).map digitChar)).getD []) =
        (padFrac minF v.frac).map digitChar := by
      show onlyDigits (mkWF (some dc) g ms pfxL sfxL minF maxF)
        ((padFrac minF v.frac).map digitChar) = _
      exact onlyDigits_eq_self rfl _ hglyphdig
    rw [hF]
    simp only [parse]
    rw [hFe]
    simp only [Bool.false_eq_true, if_false]
    rw [hFneg, hFstrip, hgs, hdecT, hmatch]
    simp only []
    simp only [hsplit, hcn, hvalid]
    simp only [if_true, ite_true]
    rw [honlyF, honlyI]
    rw [composeNumber_eval v.neg _ _ (by rw [hcn]; exact hvi) hglyphdig]
    rw [hcn]
    rw [charsToNat_map_digitChar _ hfrd]
    rw [List.length_map]
    rw [mkRat_int_frac v.int (natBE (padFrac minF v.frac)) (padFrac minF v.frac).length]
    have hfv : ((natBE (padFrac minF v.frac) : ℚ)) / ((10 : ℚ) ^ (padFrac minF v.frac).length) =
        (natBE v.frac : ℚ) / ((10 : ℚ) ^ v.frac.length) := frac_pad_value v.frac minF
    rw [hfv]
    rw [dvalue, fracValue]

/-- C1 amended: the round trip holds on every profile of the
host-constructed shape whose affixes are disjoint from the numeric
characters and whose style applies no value rescaling (ASCII digit
glyphs, single-character decimal/grouping symbols, nonempty minus
symbol, `negativePrefix = minusSymbol ++ prefix`, and, when no decimal
symbol exists, forced 0/0 fraction bounds): for every value
representable within `maximumFractionDigits` and the host's numeric
range, `parse (format v)` returns exactly `v`.  It does not hold for
every supported profile (see the counterexample). -/
theorem claim_C1_round_trip
    (d g : Option Char) (ms pfxL sfxL : List Char) (minF maxF : Nat)
    (m0 : Char) (ms' : List Char) (hms : ms = m0 :: ms')
    (hmsC : ∀ c ∈ ms, isAsciiDigit c = false ∧ c ∉ pfxL ∧ c ∉ sfxL ∧ d ≠ some c ∧ g ≠ some c)
    (hpfxC : ∀ c ∈ pfxL, isAsciiDigit c = false ∧ c ∉ sfxL ∧ c ≠ '-' ∧ d ≠ some c ∧ g ≠ some c)
    (hsfxC : ∀ c ∈ sfxL, isAsciiDigit c = false ∧ c ≠ '-' ∧ d ≠ some c ∧ g ≠ some c)
    (hdC : ∀ c, d = some c → isAsciiDigit c = false ∧ c ≠ '-' ∧ g ≠ some c)
    (hgC : ∀ c, g = some c → isAsciiDigit c = false ∧ c ≠ '-')
    (hdnone : d = none → minF = 0 ∧ maxF = 0)
    (v : DecValue) (hvf : v.frac.length ≤ maxF) (hvd : ∀ x ∈ v.frac, x < 10)
    (hvi : v.int < JS_OVERFLOW) :
    parse (mkWF d g ms pfxL sfxL minF maxF)
        (some (format (mkWF d g ms pfxL sfxL minF maxF) (some v))) =
      some (JsNumber.fin (dvalue v)) := by
  cases d with
  | none =>
    exact round_trip_none g ms pfxL sfxL minF maxF m0 ms' hms hmsC hpfxC hsfxC hgC
      (hdnone rfl) v hvf hvi
  | some dc =>
    exact round_trip_some dc g ms pfxL sfxL minF maxF m0 ms' hms hmsC hpfxC hsfxC hdC hgC
      v hvd hvi

/-- C1 witness: the spec's `en` Decimal scenario value `-123456.768`
(formatted `"-123,456.768"`) round-trips through the `en`-shaped
profile. -/
theorem claim_C1_round_trip_witness :
    parse (mkWF (some '.') (some ',') ['-'] [] [] 0 3)
        (some (format (mkWF (some '.') (some ',') ['-'] [] [] 0 3)
          (some ⟨true, 123456, [7, 6, 8]⟩))) =
      some (JsNumber.fin (dvalue ⟨true, 123456, [7, 6, 8]⟩)) :=
  claim_C1_round_trip (some '.') (some ',') ['-'] [] [] 0 3 '-' [] rfl
    (by decide) (by decide) (by decide)
    (fun c h => (Option.some.inj h) ▸
      (by decide : isAsciiDigit '.' = false ∧ '.' ≠ '-' ∧ (some ',' : Option Char) ≠ some '.'))
    (fun c h => (Option.some.inj h) ▸
      (by decide : isAsciiDigit ',' = false ∧ ',' ≠ '-'))
    (fun h => nomatch h)
    ⟨true, 123456, [7, 6, 8]⟩ (by decide) (by decide) (by decide)

/-- C1 counterexample: the round trip fails on the `en` Percent profile
at the value `12`: the percent rendering (the value scaled by 100,
placed between the profile's affixes — the derived suffix being the
whole probe rendering, per C8) parses back to null, not to `12`. -/
theorem claim_C1_counterexample :
    format enPercent (some ⟨false, 12, []⟩) = "1,200-12,345,677%".data ∧
    parse enPercent (some (format enPercent (some ⟨false, 12, []⟩))) ≠
      some (JsNumber.fin (dvalue ⟨false, 12, []⟩)) := by
  refine ⟨by decide, ?_⟩
  have h : parse enPercent (some (format enPercent (some ⟨false, 12, []⟩))) = none := by decide
  rw [h]
  exact fun hx => nomatch hx

/-! ### C10: parse never returns an infinite value -/

theorem mem_onlyDigits {nf : NumberFormat} {s : List Char} {c : Char}
    (h : c ∈ onlyDigits nf s) : isAsciiDigit c = true :=
  List.of_mem_filter h

theorem strip_inf (d g : Option Char) (ms pfxL sfxL : List Char) (minF maxF : Nat)
    (m0 : Char) (ms' : List Char) (hms : ms = m0 :: ms')
    (hm0A : m0 ∉ pfxL ∧ m0 ∉ sfxL ∧ m0 ≠ '∞')
    (hsfxinf : '∞' ∉ sfxL) (b : Bool) :
    stripPrefixOrSuffix (mkWF d g ms pfxL sfxL minF maxF)
      (normalizeDigits (mkWF d g ms pfxL sfxL minF maxF)
        (hostFormatInteger (mkWF d g ms pfxL sfxL minF maxF) b none)) = ['∞'] := by
  have hhost : hostFormatInteger (mkWF d g ms pfxL sfxL minF maxF) b none =
      (mkWF d g ms pfxL sfxL minF maxF).pfx ++ ['∞'] ++
        (mkWF d g ms pfxL sfxL minF maxF).suffix := rfl
  rw [hhost, normalizeDigits_ascii rfl]
  apply strip_affixes_pos _ ms _ m0 ms' hms rfl
  · refine ⟨hm0A.1, ?_, hm0A.2.1⟩
    intro hmem
    have : m0 = '∞' := by simpa using hmem
    exact hm0A.2.2 this
  · intro c hc hmem
    have : c = '∞' := by simpa using hmem
    rw [this] at hc
    exact hsfxinf hc

/-- C10.  For every profile of the host-constructed shape whose symbols
and affixes avoid the infinity glyph, and for every input, a non-null
`parse` result is a finite number: an all-digit magnitude at or beyond
the host's numeric range is rejected, because `Number` overflows to
`Infinity`, whose re-rendering `∞` cannot equal the all-digit integer
portion of the input. -/
theorem claim_C10_parse_finite (d g : Option Char) (ms pfxL sfxL : List Char) (minF maxF : Nat)
    (m0 : Char) (ms' : List Char) (hms : ms = m0 :: ms')
    (hm0A : m0 ∉ pfxL ∧ m0 ∉ sfxL ∧ m0 ≠ '∞')
    (hsfxinf : '∞' ∉ sfxL)
    (hginf : ∀ c, g = some c → c ≠ '∞')
    (s : Option (List Char)) (r : JsNumber)
    (h : parse (mkWF d g ms pfxL sfxL minF maxF) s = some r) :
    ∃ q : ℚ, r = JsNumber.fin q := by
  cases s with
  | none => cases h
  | some s0 =>
    simp only [parse] at h
    by_cases he : s0.isEmpty = true
    · rw [if_pos he] at h
      cases h
    · rw [if_neg he] at h
      cases hm : matchNumber
          (stripGroupingSeparator (mkWF d g ms pfxL sfxL minF maxF)
            (stripMinusSymbol (mkWF d g ms pfxL sfxL minF maxF)
              (stripPrefixOrSuffix (mkWF d g ms pfxL sfxL minF maxF)
                (normalizeDigits (mkWF d g ms pfxL sfxL minF maxF) s0))))
          (if truthyStr (mkWF d g ms pfxL sfxL minF maxF).decimalSymbol
            then (mkWF d g ms pfxL sfxL minF maxF).decimalSymbol else none) with
      | none =>
        rw [hm] at h
        cases h
      | some ipfp =>
        obtain ⟨ip, fp⟩ := ipfp
        rw [hm] at h
        simp only [] at h
        obtain ⟨hipdig, ⟨c0, hhead, hc0dig⟩, _⟩ := matchNumber_sound _ _ _ _ hm
        by_cases hv : isValidIntegerFormat (mkWF d g ms pfxL sfxL minF maxF)
            (match (if truthyStr (mkWF d g ms pfxL sfxL minF maxF).decimalSymbol
              then (mkWF d g ms pfxL sfxL minF maxF).decimalSymbol else none) with
              | some ds => splitBefore (stripMinusSymbol (mkWF d g ms pfxL sfxL minF maxF)
                  (stripPrefixOrSuffix (mkWF d g ms pfxL sfxL minF maxF)
                    (normalizeDigits (mkWF d g ms pfxL sfxL minF maxF) s0))) ds
              | none => stripMinusSymbol (mkWF d g ms pfxL sfxL minF maxF)
                  (stripPrefixOrSuffix (mkWF d g ms pfxL sfxL minF maxF)
                    (normalizeDigits (mkWF d g ms pfxL sfxL minF maxF) s0)))
            (jsOfNat (charsToNat ip)) = true
        · rw [if_pos hv] at h
          have hrc : r = composeNumber
              (isNegative (mkWF d g ms pfxL sfxL minF maxF) s0)
              (onlyDigits (mkWF d g ms pfxL sfxL minF maxF) ip)
              (onlyDigits (mkWF d g ms pfxL sfxL minF maxF) (fp.getD [])) :=
            (Option.some.inj h).symm
          have hiplt : charsToNat ip < JS_OVERFLOW := by
            by_contra hge
            have hjs : jsOfNat (charsToNat ip) = none := by
              rw [jsOfNat, if_neg hge]
            rw [hjs] at hv
            have hinf1 := strip_inf d g ms pfxL sfxL minF maxF m0 ms' hms hm0A hsfxinf true
            have hinf2 := strip_inf d g ms pfxL sfxL minF maxF m0 ms' hms hm0A hsfxinf false
            rw [isValidIntegerFormat, hinf1, hinf2] at hv
            have hpre : (match (if truthyStr (mkWF d g ms pfxL sfxL minF maxF).decimalSymbol
                then (mkWF d g ms pfxL sfxL minF maxF).decimalSymbol else none) with
                | some ds => splitBefore (stripMinusSymbol (mkWF d g ms pfxL sfxL minF maxF)
                    (stripPrefixOrSuffix (mkWF d g ms pfxL sfxL minF maxF)
                      (normalizeDigits (mkWF d g ms pfxL sfxL minF maxF) s0))) ds
                | none => stripMinusSymbol (mkWF d g ms pfxL sfxL minF maxF)
                    (stripPrefixOrSuffix (mkWF d g ms pfxL sfxL minF maxF)
                      (normalizeDigits (mkWF d g ms pfxL sfxL minF maxF) s0))) = ['∞'] := by
              rcases Bool.or_eq_true_iff.mp hv with h1 | h1
              · exact (eq_of_beq h1).symm
              · exact (eq_of_beq h1).symm
            have hs3head : (stripMinusSymbol (mkWF d g ms pfxL sfxL minF maxF)
                (stripPrefixOrSuffix (mkWF d g ms pfxL sfxL minF maxF)
                  (normalizeDigits (mkWF d g ms pfxL sfxL minF maxF) s0))).head? = some '∞' := by
              cases hdecT : (if truthyStr (mkWF d g ms pfxL sfxL minF maxF).decimalSymbol
                  then (mkWF d g ms pfxL sfxL minF maxF).decimalSymbol else none) with
              | none =>
                rw [hdecT] at hpre
                have hchain : stripMinusSymbol (mkWF d g ms pfxL sfxL minF maxF)
                    (stripPrefixOrSuffix (mkWF d g ms pfxL sfxL minF maxF)
                      (normalizeDigits (mkWF d g ms pfxL sfxL minF maxF) s0)) = ['∞'] := hpre
                rw [hchain]
                rfl
              | some ds =>
                rw [hdecT] at hpre
                have hsplit2 : splitBefore (stripMinusSymbol (mkWF d g ms pfxL sfxL minF maxF)
                    (stripPrefixOrSuffix (mkWF d g ms pfxL sfxL minF maxF)
                      (normalizeDigits (mkWF d g ms pfxL sfxL minF maxF) s0))) ds = ['∞'] := hpre
                exact splitBefore_cons_head hsplit2
            have hstripped_head : (stripGroupingSeparator (mkWF d g ms pfxL sfxL minF maxF)
                (stripMinusSymbol (mkWF d g ms pfxL sfxL minF maxF)
                  (stripPrefixOrSuffix (mkWF d g ms pfxL sfxL minF maxF)
                    (normalizeDigits (mkWF d g ms pfxL sfxL minF maxF) s0)))).head? = some '∞' := by
              obtain ⟨t, ht⟩ : ∃ t, stripMinusSymbol (mkWF d g ms pfxL sfxL minF maxF)
                  (stripPrefixOrSuffix (mkWF d g ms pfxL sfxL minF maxF)
                    (normalizeDigits (mkWF d g ms pfxL sfxL minF maxF) s0)) = '∞' :: t := by
                cases hs : stripMinusSymbol (mkWF d g ms pfxL sfxL minF maxF)
                    (stripPrefixOrSuffix (mkWF d g ms pfxL sfxL minF maxF)
                      (normalizeDigits (mkWF d g ms pfxL sfxL minF maxF) s0)) with
                | nil => rw [hs] at hs3head; cases hs3head
                | cons x xs =>
                  rw [hs] at hs3head
                  have : x = '∞' := by simpa using hs3head
                  exact ⟨xs, by rw [this]⟩
              rw [ht]
              cases hgc : g with
              | none =>
                show (('∞' :: t) : List Char).head? = some '∞'
                rfl
              | some gc =>
                show (replaceAll ('∞' :: t) [gc] []).head? = some '∞'
                rw [replaceAll_singleton]
                have hne : ('∞' != gc) = true :=
                  bne_iff_ne.mpr (fun hce => (hginf gc hgc) hce.symm)
                simp [List.filter_cons, hne]
            rw [hstripped_head] at hhead
            have hce : '∞' = c0 := by simpa using hhead
            rw [← hce] at hc0dig
            exact absurd hc0dig (by decide)
          have hdigits2 : ∀ c ∈ onlyDigits (mkWF d g ms pfxL sfxL minF maxF) ip,
              isAsciiDigit c = true := fun c hc => mem_onlyDigits hc
          have honlyip : onlyDigits (mkWF d g ms pfxL sfxL minF maxF) ip = ip :=
            onlyDigits_eq_self rfl ip hipdig
          rw [hrc, composeNumber_eval _ _ _ (by rw [honlyip]; exact hiplt)
            (fun c hc => mem_onlyDigits hc)]
          exact ⟨_, rfl⟩
        · rw [if_neg hv] at h
          cases h

/-- C10 witness: on the `en`-shaped Decimal profile the input `"5"`
parses to the finite value 5, and the theorem yields its finiteness. -/
theorem claim_C10_parse_finite_witness :
    ∃ q : ℚ, JsNumber.fin 5 = JsNumber.fin q :=
  claim_C10_parse_finite (some '.') (some ',') ['-'] [] [] 0 3 '-' [] rfl
    (by decide) (by decide)
    (fun c h => (Option.some.inj h) ▸ (by decide : (',' : Char) ≠ '∞'))
    (some "5".data) (JsNumber.fin 5) (by decide)
end INI
